import Mathlib

set_option maxRecDepth 4000

/-
Verification of the response-normalization and request-validation logic of
the video/audio analysis endpoints.  Strings are modelled as `List Char`
(Unicode scalar values); all inputs used in concrete theorems stay in the
basic multilingual plane, where JS UTF-16 code-unit indexing coincides with
character indexing.
-/

namespace VE

/-- Membership in the JS regex whitespace class (the set matched by a
backslash-s in a JS regular expression, which is also the set of characters
removed by the JS trim method). -/
def isJsWs (c : Char) : Bool :=
  c = ' ' || c = '\t' || c = '\n' || c = '\x0b' || c = '\x0c' || c = '\r' ||
  c.toNat = 0xa0 || c.toNat = 0x1680 ||
  (0x2000 ≤ c.toNat && c.toNat ≤ 0x200a) ||
  c.toNat = 0x2028 || c.toNat = 0x2029 || c.toNat = 0x202f ||
  c.toNat = 0x205f || c.toNat = 0x3000 || c.toNat = 0xfeff

/-- Whitespace accepted by JSON.parse between tokens (RFC 8259). -/
def isJsonWs (c : Char) : Bool :=
  c = ' ' || c = '\t' || c = '\n' || c = '\r'

/-- Drop trailing JS whitespace. -/
def dropTrailingWs (s : List Char) : List Char :=
  (s.reverse.dropWhile isJsWs).reverse

/-- Model of the JS trim method. -/
def trimJS (s : List Char) : List Char :=
  dropTrailingWs (s.dropWhile isJsWs)

/-- Does the second list start with the first one? -/
def leadsWith : List Char → List Char → Bool
  | [], _ => true
  | _ :: _, [] => false
  | p :: ps, c :: cs => p = c && leadsWith ps cs

/-- Does the second list end with the first one? -/
def trailsWith (p s : List Char) : Bool :=
  leadsWith p.reverse s.reverse

def fenceJson : List Char := "\x60\x60\x60json".data

def fenceBare : List Char := "\x60\x60\x60".data

/-- Model of the regex replace of a leading fenced marker tagged json:
the pattern is anchored, the backslash-s star is greedy and subsumes the
optional newline, so the effect is: drop the seven marker characters and
all following whitespace.  Applied only when the marker is present. -/
def stripJsonFence (s : List Char) : List Char :=
  if leadsWith fenceJson s then (s.drop 7).dropWhile isJsWs else s

/-- Model of the regex replace of a leading bare fenced marker. -/
def stripBareFence (s : List Char) : List Char :=
  if leadsWith fenceBare s then (s.drop 3).dropWhile isJsWs else s

/-- Drop the last n characters. -/
def dropRightN (s : List Char) (n : Nat) : List Char :=
  s.take (s.length - n)

/-- Model of the regex replace of a trailing fenced marker: the pattern
(optional newline, marker, whitespace run, end anchor) matches exactly when
the string with trailing whitespace removed ends in the marker; the match
swallows the marker, the whitespace after it and one newline before it. -/
def stripTrailFence (s : List Char) : List Char :=
  let t := dropTrailingWs s
  if trailsWith fenceBare t then
    let u := dropRightN t 3
    if trailsWith ['\n'] u then dropRightN u 1 else u
  else s

/-- The full cleanup applied to the raw reply before the direct parse:
trim, strip a json-tagged leading fence, strip a bare leading fence, strip
a trailing fence, trim again. -/
def cleanFences (raw : List Char) : List Char :=
  trimJS (stripTrailFence (stripBareFence (stripJsonFence (trimJS raw))))

/-- Suffix of the input starting at the first opening brace. -/
def dropUntilBrace : List Char → Option (List Char)
  | [] => none
  | c :: cs => if c = '\x7b' then some (c :: cs) else dropUntilBrace cs

/-- Longest prefix of the input ending with a closing brace. -/
def uptoLastClose (l : List Char) : Option (List Char) :=
  let r := (l.reverse.dropWhile (fun c => c ≠ '\x7d')).reverse
  if r.isEmpty then none else some r

/-- Model of matching the raw text against the brace regex (open brace,
greedy any-character star, close brace): the leftmost-longest match runs
from the first opening brace to the last closing brace after it. -/
def braceMatch (s : List Char) : Option (List Char) :=
  match dropUntilBrace s with
  | some (c :: cs) =>
    match uptoLastClose cs with
    | some m => some (c :: m)
    | none => none
  | _ => none

/-! ### A model of JSON.parse

Dynamic JSON values as produced by JSON.parse.  Numbers keep their source
lexeme: the claims under study never compare numeric magnitudes, they only
test truthiness, which is decidable from the lexeme. -/

inductive JsValue where
  | null
  | bool (b : Bool)
  | num (lex : List Char)
  | str (s : List Char)
  | arr (elems : List JsValue)
  | obj (fields : List (List Char × JsValue))

/-- Skip inter-token JSON whitespace. -/
def skipJsonWs (s : List Char) : List Char := s.dropWhile isJsonWs

def isDig (c : Char) : Bool := '0' ≤ c && c ≤ '9'

def isHex (c : Char) : Bool :=
  ('0' ≤ c && c ≤ '9') || ('a' ≤ c && c ≤ 'f') || ('A' ≤ c && c ≤ 'F')

def hexVal (c : Char) : Nat :=
  if '0' ≤ c && c ≤ '9' then c.toNat - 48
  else if 'a' ≤ c && c ≤ 'f' then c.toNat - 87
  else c.toNat - 55

/-- Single-character escapes of JSON strings. -/
def escChar (c : Char) : Option Char :=
  if c = '"' then some '"' else if c = '\\' then some '\\'
  else if c = '/' then some '/' else if c = 'b' then some '\x08'
  else if c = 'f' then some '\x0c' else if c = 'n' then some '\n'
  else if c = 'r' then some '\r' else if c = 't' then some '\t'
  else none

def isHighSur (n : Nat) : Bool := 0xd800 ≤ n && n ≤ 0xdbff

def isLowSur (n : Nat) : Bool := 0xdc00 ≤ n && n ≤ 0xdfff

/-- Replacement characters emitted for a dangling high surrogate.  JS keeps
the lone UTF-16 code unit in the string; Lean characters are scalar values,
so the model substitutes the replacement character.  No theorem below
exercises this corner. -/
def flushPend : Option Nat → List Char
  | none => []
  | some _ => ['�']

/-- Emit the character denoted by a u-escape, combining surrogate pairs. -/
def emitCode (pend : Option Nat) (n : Nat) (acc : List Char) :
    Option Nat × List Char :=
  match pend with
  | some hi =>
    if isLowSur n then
      (none, Char.ofNat (0x10000 + (hi - 0xd800) * 0x400 + (n - 0xdc00)) :: acc)
    else if isHighSur n then (some n, '�' :: acc)
    else (none, Char.ofNat n :: '�' :: acc)
  | none =>
    if isHighSur n then (some n, acc)
    else if isLowSur n then (none, '�' :: acc)
    else (none, Char.ofNat n :: acc)

/-- States of the string scanner: plain, after a backslash, inside the hex
digits of a u-escape. -/
inductive SMode where
  | sNorm
  | sEsc
  | sHex (ds : List Char)

/-- Scan a JSON string body (the opening quote already consumed).  Returns
the decoded content and the input after the closing quote.  `acc` holds the
decoded prefix reversed, `pend` a pending high surrogate. -/
def parseStrS : Option Nat → SMode → List Char → List Char →
    Option (List Char × List Char)
  | _, _, _, [] => none
  | pend, SMode.sNorm, acc, c :: cs =>
    if c = '"' then some ((flushPend pend ++ acc).reverse, cs)
    else if c = '\\' then parseStrS pend SMode.sEsc acc cs
    else if c.toNat < 0x20 then none
    else parseStrS none SMode.sNorm (c :: (flushPend pend ++ acc)) cs
  | pend, SMode.sEsc, acc, c :: cs =>
    if c = 'u' then parseStrS pend (SMode.sHex []) acc cs
    else
      match escChar c with
      | some e => parseStrS none SMode.sNorm (e :: (flushPend pend ++ acc)) cs
      | none => none
  | pend, SMode.sHex ds, acc, c :: cs =>
    if isHex c then
      let ds2 := ds ++ [c]
      if ds2.length = 4 then
        let n := ds2.foldl (fun a d => a * 16 + hexVal d) 0
        let p := emitCode pend n acc
        parseStrS p.1 SMode.sNorm p.2 cs
      else parseStrS pend (SMode.sHex ds2) acc cs
    else none

/-- Exponent part of a number (optional).  `acc` is the lexeme so far. -/
def numExpPart (acc : List Char) (s : List Char) :
    Option (List Char × List Char) :=
  match s with
  | c :: cs =>
    if c = 'e' || c = 'E' then
      match cs with
      | d :: cs2 =>
        if d = '+' || d = '-' then
          let ds := cs2.takeWhile isDig
          if ds.isEmpty then none
          else some (acc ++ c :: d :: ds, cs2.dropWhile isDig)
        else
          let ds := cs.takeWhile isDig
          if ds.isEmpty then none
          else some (acc ++ c :: ds, cs.dropWhile isDig)
      | [] => none
    else some (acc, s)
  | [] => some (acc, [])

/-- Fraction part of a number (optional), then the exponent part. -/
def numFracPart (acc : List Char) (s : List Char) :
    Option (List Char × List Char) :=
  match s with
  | c :: cs =>
    if c = '.' then
      let ds := cs.takeWhile isDig
      if ds.isEmpty then none
      else numExpPart (acc ++ c :: ds) (cs.dropWhile isDig)
    else numExpPart acc s
  | [] => numExpPart acc []

/-- Lex a JSON number; returns the lexeme and the rest of the input. -/
def parseNum (s : List Char) : Option (List Char × List Char) :=
  match s with
  | [] => none
  | c :: cs =>
    if c = '-' then
      match cs with
      | [] => none
      | d :: cs2 =>
        if d = '0' then numFracPart ['-', '0'] cs2
        else if isDig d then
          numFracPart ('-' :: d :: cs2.takeWhile isDig) (cs2.dropWhile isDig)
        else none
    else if c = '0' then numFracPart ['0'] cs
    else if isDig c then
      numFracPart (c :: cs.takeWhile isDig) (cs.dropWhile isDig)
    else none

mutual

/-- Parse one JSON value.  Fuel bounds the value-nesting recursion; any
fuel above the input length is enough. -/
def parseVal : Nat → List Char → Option (JsValue × List Char)
  | 0, _ => none
  | _ + 1, [] => none
  | f + 1, c :: cs =>
    if c = '"' then
      match parseStrS none SMode.sNorm [] cs with
      | some (st, r) => some (JsValue.str st, r)
      | none => none
    else if c = '\x7b' then
      match skipJsonWs cs with
      | [] => none
      | d :: ds =>
        if d = '\x7d' then some (JsValue.obj [], ds)
        else
          match parseMember f (d :: ds) with
          | some (kv, r) => parseObjTail f (skipJsonWs r) [kv]
          | none => none
    else if c = '[' then
      match skipJsonWs cs with
      | [] => none
      | d :: ds =>
        if d = ']' then some (JsValue.arr [], ds)
        else
          match parseVal f (d :: ds) with
          | some (v, r) => parseArrTail f (skipJsonWs r) [v]
          | none => none
    else if c = 't' then
      if leadsWith "rue".data cs then some (JsValue.bool true, cs.drop 3)
      else none
    else if c = 'f' then
      if leadsWith "alse".data cs then some (JsValue.bool false, cs.drop 4)
      else none
    else if c = 'n' then
      if leadsWith "ull".data cs then some (JsValue.null, cs.drop 3)
      else none
    else if c = '-' || isDig c then
      match parseNum (c :: cs) with
      | some (lex, r) => some (JsValue.num lex, r)
      | none => none
    else none

/-- Parse one key-value member of an object (key quote expected first). -/
def parseMember : Nat → List Char →
    Option ((List Char × JsValue) × List Char)
  | 0, _ => none
  | f + 1, s =>
    match s with
    | [] => none
    | c :: cs =>
      if c = '"' then
        match parseStrS none SMode.sNorm [] cs with
        | some (k, r) =>
          match skipJsonWs r with
          | [] => none
          | d :: r2 =>
            if d = ':' then
              match parseVal f (skipJsonWs r2) with
              | some (v, r3) => some ((k, v), r3)
              | none => none
            else none
        | none => none
      else none

/-- Remaining members of an object after the first one. -/
def parseObjTail : Nat → List Char → List (List Char × JsValue) →
    Option (JsValue × List Char)
  | 0, _, _ => none
  | f + 1, s, acc =>
    match s with
    | [] => none
    | d :: r =>
      if d = '\x7d' then some (JsValue.obj acc.reverse, r)
      else if d = ',' then
        match parseMember f (skipJsonWs r) with
        | some (kv, r2) => parseObjTail f (skipJsonWs r2) (kv :: acc)
        | none => none
      else none

/-- Remaining elements of an array after the first one. -/
def parseArrTail : Nat → List Char → List JsValue →
    Option (JsValue × List Char)
  | 0, _, _ => none
  | f + 1, s, acc =>
    match s with
    | [] => none
    | d :: r =>
      if d = ']' then some (JsValue.arr acc.reverse, r)
      else if d = ',' then
        match parseVal f (skipJsonWs r) with
        | some (v, r2) => parseArrTail f (skipJsonWs r2) (v :: acc)
        | none => none
      else none

end

/-- Model of JSON.parse: a value surrounded by whitespace and nothing
else; everything beyond fails with an exception, modelled as `none`. -/
def jsonParse (s : List Char) : Option JsValue :=
  let s1 := skipJsonWs s
  match parseVal (s1.length + 1) s1 with
  | some (v, r) => if (skipJsonWs r).isEmpty then some v else none
  | none => none

/-- Characters that can begin a JSON value. -/
def startOk (c : Char) : Bool :=
  c = '"' || c = '\x7b' || c = '[' || c = 't' || c = 'f' || c = 'n' ||
  c = '-' || isDig c

/-- Characters that can end a consumed JSON value. -/
def endOk (c : Char) : Bool :=
  c = '"' || c = '\x7d' || c = ']' || c = 'e' || c = 'l' || isDig c

/-- A rest of input whose head cannot extend a just-finished number. -/
def edgeOk (r : List Char) : Bool :=
  match r with
  | [] => true
  | c :: _ => !(isDig c || c = '.' || c = 'e' || c = 'E')

/-- Two rests between which a parse run can be transplanted: equal heads,
or both unable to extend a number. -/
def edgeM (r r2 : List Char) : Prop :=
  r.head? = r2.head? ∨ (edgeOk r = true ∧ edgeOk r2 = true)

/-- The consumed input ends in a character that can end a value. -/
def goodEnd (u : List Char) : Prop :=
  ∃ c, u.getLast? = some c ∧ endOk c = true

/-! ### The normalization stage -/

/-- Is every digit of the mantissa zero?  That decides JS truthiness of a
parsed number, exponent digits notwithstanding. -/
def numIsZero (lex : List Char) : Bool :=
  (lex.takeWhile (fun c => c ≠ 'e' && c ≠ 'E')).all
    (fun c => !isDig c || c = '0')

/-- JS truthiness of a parsed JSON value.  NaN cannot result from parsing. -/
def jsTruthy : JsValue → Bool
  | JsValue.null => false
  | JsValue.bool b => b
  | JsValue.num lex => !numIsZero lex
  | JsValue.str s => !s.isEmpty
  | JsValue.arr _ => true
  | JsValue.obj _ => true

/-- Last binding of a key in an object, matching JS object semantics where
a later duplicate key overwrites an earlier one. -/
def lookupLast (fs : List (List Char × JsValue)) (k : List Char) :
    Option JsValue :=
  match fs with
  | [] => none
  | (k2, v) :: rest =>
    match lookupLast rest k with
    | some w => some w
    | none => if k2 = k then some v else none

/-- Property access on a dynamic value: reading a property of null throws
(`none`); reading a property of any other non-object yields undefined
(`some none`). -/
def jsGetField : JsValue → List Char → Option (Option JsValue)
  | JsValue.null, _ => none
  | JsValue.obj fs, k => some (lookupLast fs k)
  | _, _ => some none

/-- The value of `x.f || emptyString`: the field value if truthy, else the
empty string; undefined also yields the empty string. -/
def orEmptyStr (o : Option JsValue) : JsValue :=
  match o with
  | some w => if jsTruthy w then w else JsValue.str []
  | none => JsValue.str []

def tKey : List Char := "transcript".data

def aKey : List Char := "analytics".data

/-- One attempt of the try-blocks: parse, then read the transcript and
analytics fields, each defaulted to the empty string when falsy.  `none`
models a thrown exception, either from JSON.parse or from the property
access on a parsed null. -/
def attemptParse (s : List Char) : Option (JsValue × JsValue) :=
  match jsonParse s with
  | none => none
  | some v =>
    match jsGetField v tKey with
    | none => none
    | some tf =>
      match jsGetField v aKey with
      | none => none
      | some af => some (orEmptyStr tf, orEmptyStr af)

/-- The transcript and analytics values produced by the normalization
stage; either may be any JS value on the parsed paths. -/
structure NormResult where
  transcript : JsValue
  analytics : JsValue

def analyticsPlaceholder : List Char :=
  "Unable to generate structured analytics. Please try with a different video or check the transcript above.".data

/-- The normalization fallback chain of the analysis endpoints: clean the
fences and parse directly; on failure match the raw text against the brace
regex and parse the match; on failure use the whole raw text plus a fixed
placeholder; when no brace match exists split the raw text at its midpoint. -/
def normalize (raw : List Char) : NormResult :=
  match attemptParse (cleanFences raw) with
  | some (t, a) => ⟨t, a⟩
  | none =>
    match braceMatch raw with
    | some m =>
      match attemptParse m with
      | some (t, a) => ⟨t, a⟩
      | none => ⟨JsValue.str raw, JsValue.str analyticsPlaceholder⟩
    | none =>
      let half := raw.length / 2
      ⟨JsValue.str (raw.take half), JsValue.str (raw.drop half)⟩

/-- View a value as a string, for stating string-valuedness. -/
def asStr : JsValue → Option (List Char)
  | JsValue.str s => some s
  | _ => none

/-! ### Response assembly and request validation -/

structure UploadedFile where
  name : List Char
  size : Nat
  mime : List Char
deriving DecidableEq

structure Metadata where
  fileName : List Char
  fileSize : List Char
  mimeType : List Char
  duration : List Char
deriving DecidableEq

structure ApiSuccess where
  transcript : JsValue
  analytics : JsValue
  metadata : Metadata
  success : Bool

/-- Human-readable size: the byte count over two to the twentieth with two
decimals, then the MB suffix.  Rounding of the JS toFixed call on an exact
double is modelled as half-up rational rounding. -/
def formatMB (size : Nat) : List Char :=
  let cent := (size * 100 + 524288) / 1048576
  (Nat.repr (cent / 100)).data ++ '.' ::
    (if cent % 100 < 10 then '0' :: (Nat.repr (cent % 100)).data
     else (Nat.repr (cent % 100)).data) ++ " MB".data

def noTranscriptPh : List Char := "No transcript available".data

def noAnalyticsPh : List Char := "No analytics available".data

/-- The value of `x || placeholder`. -/
def orPlaceholder (v : JsValue) (ph : List Char) : JsValue :=
  if jsTruthy v then v else JsValue.str ph

/-- The success body returned after the external call: normalized fields
defaulted to placeholders, metadata, and the success flag. -/
def buildResponse (f : UploadedFile) (raw : List Char) : ApiSuccess :=
  let n := normalize raw
  { transcript := orPlaceholder n.transcript noTranscriptPh
    analytics := orPlaceholder n.analytics noAnalyticsPh
    metadata :=
      { fileName := f.name
        fileSize := formatMB f.size
        mimeType := f.mime
        duration := "N/A".data }
    success := true }

/-- Process environment: the credential variable, absent or set. -/
structure Env where
  geminiApiKey : Option (List Char)

/-- Truthiness of the credential: present and non-empty. -/
def envKeyTruthy (e : Env) : Bool :=
  match e.geminiApiKey with
  | none => false
  | some k => !k.isEmpty

/-- What the POST handler does before any network activity: either an
error response or a call to the external API with the file. -/
inductive PreOutcome where
  | err (status : Nat) (msg : List Char)
  | callApi (f : UploadedFile)
deriving DecidableEq

def keyMissingMsg : List Char :=
  "Gemini API key is not configured. Please add GEMINI_API_KEY to your .env.local file.".data

def noFileMsg : List Char := "No video file provided".data

def tooLargeMsg : List Char :=
  "File size too large. Please upload a video smaller than 20MB.".data

/-- The 20MB cap of the analyze-video endpoint. -/
def maxSizeAnalyze : Nat := 20 * 1024 * 1024

/-- The 100MB cap of the video-analytics endpoint variant. -/
def maxSizeAnalytics : Nat := 100 * 1024 * 1024

/-- The request phase up to the external call: credential check, then file
presence, then the size cap. -/
def handlePre (e : Env) (file : Option UploadedFile) (maxSize : Nat) :
    PreOutcome :=
  if !envKeyTruthy e then PreOutcome.err 500 keyMissingMsg
  else
    match file with
    | none => PreOutcome.err 400 noFileMsg
    | some f =>
      if f.size > maxSize then PreOutcome.err 400 tooLargeMsg
      else PreOutcome.callApi f

/-- Does the outcome reach the external API? -/
def invokesApi : PreOutcome → Bool
  | PreOutcome.callApi _ => true
  | PreOutcome.err _ _ => false

/-- Body of the GET configuration probe. -/
structure ProbeResult where
  configured : Bool
  keyPrefix : List Char
deriving DecidableEq

/-- The GET configuration probe: a truthiness flag for the credential and
a redacted prefix, the first eight characters and an ellipsis. -/
def getProbe (e : Env) : ProbeResult :=
  let hasKey := envKeyTruthy e
  { configured := hasKey
    keyPrefix :=
      if hasKey then
        (match e.geminiApiKey with
         | some k => k.take 8
         | none => []) ++ "...".data
      else "N/A".data }

/-- A body wrapped in fenced-code markers: an opening fence carrying a
language tag (possibly empty), a newline, the body, a newline and the
closing fence. -/
def wrapFence (tag body : List Char) : List Char :=
  fenceBare ++ tag ++ '\n' :: body ++ '\n' :: fenceBare

/-! ### Computation lemmas for the fallback chain -/

theorem normalize_eq_direct {raw : List Char} {t a : JsValue}
    (h : attemptParse (cleanFences raw) = some (t, a)) :
    normalize raw = ⟨t, a⟩ := by
  simp only [normalize, h]

theorem normalize_eq_inner {raw m : List Char} {t a : JsValue}
    (hd : attemptParse (cleanFences raw) = none)
    (hb : braceMatch raw = some m) (hm : attemptParse m = some (t, a)) :
    normalize raw = ⟨t, a⟩ := by
  simp only [normalize, hd, hb, hm]

theorem normalize_eq_placeholder {raw m : List Char}
    (hd : attemptParse (cleanFences raw) = none)
    (hb : braceMatch raw = some m) (hm : attemptParse m = none) :
    normalize raw =
      ⟨JsValue.str raw, JsValue.str analyticsPlaceholder⟩ := by
  simp only [normalize, hd, hb, hm]

theorem normalize_eq_split {raw : List Char}
    (hd : attemptParse (cleanFences raw) = none)
    (hb : braceMatch raw = none) :
    normalize raw =
      ⟨JsValue.str (raw.take (raw.length / 2)),
       JsValue.str (raw.drop (raw.length / 2))⟩ := by
  simp only [normalize, hd, hb]

theorem getProbe_configured (e : Env) :
    (getProbe e).configured = envKeyTruthy e := rfl

theorem envKeyTruthy_iff (e : Env) :
    envKeyTruthy e = true ↔ ∃ k, e.geminiApiKey = some k ∧ k ≠ [] := by
  unfold envKeyTruthy
  cases hk : e.geminiApiKey with
  | none => simp
  | some k => simp [List.isEmpty_iff]

/-! ### Parser metatheory: character classes -/

theorem isDig_char {c : Char} (h : isDig c = true) :
    isJsWs c = false ∧ c ≠ '\x60' ∧ isJsonWs c = false := by
  simp only [isDig, Bool.and_eq_true, decide_eq_true_eq] at h
  have h1 : 48 ≤ c.toNat := by
    have h3 := h.1
    rw [Char.le_def] at h3
    exact h3
  have h2 : c.toNat ≤ 57 := by
    have h3 := h.2
    rw [Char.le_def] at h3
    exact h3
  refine ⟨?_, ?_, ?_⟩
  · by_contra hw
    rw [Bool.not_eq_false] at hw
    simp only [isJsWs, Bool.or_eq_true, decide_eq_true_eq,
      Bool.and_eq_true] at hw
    rcases hw with
      ((((((((((((((hx|hx)|hx)|hx)|hx)|hx)|hx)|hx)|⟨ha,hb⟩)|hx)|hx)|hx)|hx)|hx)|hx)
    all_goals first
      | (subst hx; exact absurd h1 (by decide))
      | omega
  · intro he
    subst he
    exact absurd h2 (by decide)
  · by_contra hw
    rw [Bool.not_eq_false] at hw
    simp only [isJsonWs, Bool.or_eq_true, decide_eq_true_eq] at hw
    rcases hw with ((hx|hx)|hx)|hx
    all_goals (subst hx; exact absurd h1 (by decide))

theorem endOk_char {c : Char} (h : endOk c = true) :
    isJsWs c = false ∧ c ≠ '\x60' := by
  simp only [endOk, Bool.or_eq_true, decide_eq_true_eq] at h
  rcases h with ((((hx|hx)|hx)|hx)|hx)|hx
  · subst hx; exact ⟨by decide, by decide⟩
  · subst hx; exact ⟨by decide, by decide⟩
  · subst hx; exact ⟨by decide, by decide⟩
  · subst hx; exact ⟨by decide, by decide⟩
  · subst hx; exact ⟨by decide, by decide⟩
  · exact ⟨(isDig_char hx).1, (isDig_char hx).2.1⟩

theorem startOk_char {c : Char} (h : startOk c = true) :
    isJsWs c = false ∧ c ≠ '\x60' ∧ isJsonWs c = false := by
  simp only [startOk, Bool.or_eq_true, decide_eq_true_eq] at h
  rcases h with ((((((hx|hx)|hx)|hx)|hx)|hx)|hx)|hx
  · subst hx; exact ⟨by decide, by decide, by decide⟩
  · subst hx; exact ⟨by decide, by decide, by decide⟩
  · subst hx; exact ⟨by decide, by decide, by decide⟩
  · subst hx; exact ⟨by decide, by decide, by decide⟩
  · subst hx; exact ⟨by decide, by decide, by decide⟩
  · subst hx; exact ⟨by decide, by decide, by decide⟩
  · subst hx; exact ⟨by decide, by decide, by decide⟩
  · exact (isDig_char hx)

theorem jsonWs_char {c : Char} (h : isJsonWs c = true) :
    isJsWs c = true ∧ (isDig c || c = '.' || c = 'e' || c = 'E') = false := by
  simp only [isJsonWs, Bool.or_eq_true, decide_eq_true_eq] at h
  rcases h with ((hx|hx)|hx)|hx <;> subst hx <;> exact ⟨by decide, by decide⟩

theorem orE {a b : Bool} (h : (a || b) = true) : a = true ∨ b = true := by
  cases a
  · cases b
    · cases h
    · exact Or.inr rfl
  · exact Or.inl rfl

theorem or4_false {a b c d : Bool} (h : (a || b || c || d) = false) :
    a = false ∧ b = false ∧ c = false ∧ d = false := by
  cases a <;> cases b <;> cases c <;> cases d <;> simp_all

/-! ### Parser metatheory: list toolbox -/

theorem head?_append_same {a x y : List Char} (ha : a ≠ []) :
    (a ++ x).head? = (a ++ y).head? := by
  cases a with
  | nil => exact absurd rfl ha
  | cons c cs => rfl

theorem getLast?_cons_ne {c : Char} {u : List Char} (hu : u ≠ []) :
    (c :: u).getLast? = u.getLast? := by
  cases u with
  | nil => exact absurd rfl hu
  | cons d ds => exact List.getLast?_cons_cons

theorem takeWhile_append_all {p : Char → Bool} {a b : List Char}
    (h : ∀ c ∈ a, p c = true) :
    (a ++ b).takeWhile p = a ++ b.takeWhile p := by
  induction a with
  | nil => rfl
  | cons x xs ih =>
    simp only [List.cons_append, List.takeWhile_cons,
      h x (List.mem_cons_self x xs), if_true]
    rw [ih (fun c hc => h c (List.mem_cons_of_mem x hc))]

theorem dropWhile_append_all {p : Char → Bool} {a b : List Char}
    (h : ∀ c ∈ a, p c = true) : (a ++ b).dropWhile p = b.dropWhile p := by
  induction a with
  | nil => rfl
  | cons x xs ih =>
    simp only [List.cons_append, List.dropWhile_cons,
      h x (List.mem_cons_self x xs), if_true]
    exact ih (fun c hc => h c (List.mem_cons_of_mem x hc))

theorem dropWhile_head_false {p : Char → Bool} {l : List Char}
    (h : ∀ c, l.head? = some c → p c = false) : l.dropWhile p = l := by
  cases l with
  | nil => rfl
  | cons c cs =>
    rw [List.dropWhile_cons, h c rfl]
    simp

theorem takeWhile_head_false {p : Char → Bool} {l : List Char}
    (h : ∀ c, l.head? = some c → p c = false) : l.takeWhile p = [] := by
  cases l with
  | nil => rfl
  | cons c cs =>
    rw [List.takeWhile_cons, h c rfl]
    simp

theorem head?_dropWhile_false {p : Char → Bool} {l : List Char} {c : Char}
    (h : (l.dropWhile p).head? = some c) : p c = false := by
  have h2 := List.head?_dropWhile_not p l
  rw [h] at h2
  exact h2

theorem goodEnd_cons {c : Char} {u : List Char} (h : goodEnd u) :
    goodEnd (c :: u) := by
  obtain ⟨d, hd, he⟩ := h
  have hu : u ≠ [] := by
    intro h0
    rw [h0] at hd
    cases hd
  exact ⟨d, by rw [getLast?_cons_ne hu]; exact hd, he⟩

theorem goodEnd_append {u v : List Char} (h : goodEnd v) :
    goodEnd (u ++ v) := by
  obtain ⟨d, hd, he⟩ := h
  refine ⟨d, ?_, he⟩
  rw [List.getLast?_append, hd]
  rfl

theorem goodEnd_ne_nil {u : List Char} (h : goodEnd u) : u ≠ [] := by
  obtain ⟨d, hd, _⟩ := h
  intro h0
  rw [h0] at hd
  cases hd

/-! ### Parser metatheory: transplanting a parse onto a different rest -/

theorem edgeM_headNot {r r2 : List Char} (h : edgeM r r2)
    (hd : ∀ c, r.head? = some c →
      (isDig c || c = '.' || c = 'e' || c = 'E') = false) :
    ∀ c, r2.head? = some c →
      (isDig c || c = '.' || c = 'e' || c = 'E') = false := by
  intro c hc
  rcases h with h | ⟨_, h2⟩
  · exact hd c (h.trans hc)
  · unfold edgeOk at h2
    cases r2 with
    | nil => cases hc
    | cons d ds =>
      have hdc : d = c := Option.some.inj hc
      subst hdc
      rw [Bool.not_eq_true'] at h2
      exact h2

theorem edgeM_refl (r : List Char) : edgeM r r := Or.inl rfl

/-- A successful string scan consumes a prefix ending in the closing
quote, and the very same scan succeeds against any other rest of input. -/
theorem parseStrS_replay :
    ∀ (s : List Char) (pend : Option Nat) (m : SMode) (acc cnt r : List Char),
      parseStrS pend m acc s = some (cnt, r) →
      ∃ u, s = u ++ r ∧ u.getLast? = some '"' ∧
        ∀ r2, parseStrS pend m acc (u ++ r2) = some (cnt, r2) := by
  intro s
  induction s with
  | nil =>
    intro pend m acc cnt r h
    cases m <;> cases h
  | cons c cs ih =>
    intro pend m acc cnt r h
    cases m with
    | sNorm =>
      simp only [parseStrS] at h
      split_ifs at h with h1 h2 h3
      · injection h with hp
        injection hp with ha hb
        subst h1 ha hb
        exact ⟨['"'], rfl, rfl, fun r2 => rfl⟩
      · obtain ⟨u, hs, hl, hre⟩ := ih _ _ _ _ _ h
        refine ⟨c :: u, by rw [hs]; rfl, ?_, fun r2 => ?_⟩
        · rw [getLast?_cons_ne (by intro h0; rw [h0] at hl; cases hl)]
          exact hl
        · show parseStrS pend SMode.sNorm acc (c :: (u ++ r2)) = some (cnt, r2)
          simp only [parseStrS]
          rw [if_neg h1, if_pos h2]
          exact hre r2
      · obtain ⟨u, hs, hl, hre⟩ := ih _ _ _ _ _ h
        refine ⟨c :: u, by rw [hs]; rfl, ?_, fun r2 => ?_⟩
        · rw [getLast?_cons_ne (by intro h0; rw [h0] at hl; cases hl)]
          exact hl
        · show parseStrS pend SMode.sNorm acc (c :: (u ++ r2)) = some (cnt, r2)
          simp only [parseStrS]
          rw [if_neg h1, if_neg h2, if_neg h3]
          exact hre r2
    | sEsc =>
      simp only [parseStrS] at h
      split_ifs at h with h1
      · obtain ⟨u, hs, hl, hre⟩ := ih _ _ _ _ _ h
        refine ⟨c :: u, by rw [hs]; rfl, ?_, fun r2 => ?_⟩
        · rw [getLast?_cons_ne (by intro h0; rw [h0] at hl; cases hl)]
          exact hl
        · show parseStrS pend SMode.sEsc acc (c :: (u ++ r2)) = some (cnt, r2)
          simp only [parseStrS]
          rw [if_pos h1]
          exact hre r2
      · cases he : escChar c with
        | none => rw [he] at h; cases h
        | some e =>
          rw [he] at h
          obtain ⟨u, hs, hl, hre⟩ := ih _ _ _ _ _ h
          refine ⟨c :: u, by rw [hs]; rfl, ?_, fun r2 => ?_⟩
          · rw [getLast?_cons_ne (by intro h0; rw [h0] at hl; cases hl)]
            exact hl
          · show parseStrS pend SMode.sEsc acc (c :: (u ++ r2)) = some (cnt, r2)
            simp only [parseStrS]
            rw [if_neg h1, he]
            exact hre r2
    | sHex ds =>
      simp only [parseStrS] at h
      split_ifs at h with h1 h2
      · obtain ⟨u, hs, hl, hre⟩ := ih _ _ _ _ _ h
        refine ⟨c :: u, by rw [hs]; rfl, ?_, fun r2 => ?_⟩
        · rw [getLast?_cons_ne (by intro h0; rw [h0] at hl; cases hl)]
          exact hl
        · show parseStrS pend (SMode.sHex ds) acc (c :: (u ++ r2)) =
            some (cnt, r2)
          simp only [parseStrS]
          rw [if_pos h1, if_pos h2]
          exact hre r2
      · obtain ⟨u, hs, hl, hre⟩ := ih _ _ _ _ _ h
        refine ⟨c :: u, by rw [hs]; rfl, ?_, fun r2 => ?_⟩
        · rw [getLast?_cons_ne (by intro h0; rw [h0] at hl; cases hl)]
          exact hl
        · show parseStrS pend (SMode.sHex ds) acc (c :: (u ++ r2)) =
            some (cnt, r2)
          simp only [parseStrS]
          rw [if_pos h1, if_neg h2]
          exact hre r2

theorem getLast?_some_of_ne_nil {l : List Char} (h : l ≠ []) :
    ∃ x, l.getLast? = some x := by
  cases hl : l.getLast? with
  | none => exact absurd (List.getLast?_eq_none_iff.mp hl) h
  | some x => exact ⟨x, rfl⟩

theorem endOk_of_isDig {d : Char} (h : isDig d = true) : endOk d = true := by
  unfold endOk
  rw [h]
  simp

theorem goodEnd_takeWhile {l : List Char} (hne : l.takeWhile isDig ≠ []) :
    goodEnd (l.takeWhile isDig) := by
  obtain ⟨x, hx⟩ := getLast?_some_of_ne_nil hne
  exact ⟨x, hx, endOk_of_isDig
    (List.mem_takeWhile_imp (List.mem_of_mem_getLast? hx))⟩

theorem edgeM_digStop {r r2 : List Char} (h : edgeM r r2)
    (hd : ∀ c, r.head? = some c → isDig c = false) :
    r2.takeWhile isDig = [] ∧ r2.dropWhile isDig = r2 := by
  have hh : ∀ c, r2.head? = some c → isDig c = false := by
    intro c hc
    rcases h with h | ⟨_, h2⟩
    · exact hd c (h.trans hc)
    · cases r2 with
      | nil => cases hc
      | cons d ds =>
        have hdc := Option.some.inj hc
        subst hdc
        simp only [edgeOk] at h2
        rw [Bool.not_eq_true'] at h2
        exact (or4_false h2).1
  exact ⟨takeWhile_head_false hh, dropWhile_head_false hh⟩

theorem edgeM_expStop {r r2 : List Char} (h : edgeM r r2)
    (hd : ∀ c, r.head? = some c →
      (decide (c = 'e') || decide (c = 'E')) = false) :
    ∀ c, r2.head? = some c →
      (decide (c = 'e') || decide (c = 'E')) = false := by
  intro c hc
  rcases h with h | ⟨_, h2⟩
  · exact hd c (h.trans hc)
  · cases r2 with
    | nil => cases hc
    | cons d ds =>
      have hdc := Option.some.inj hc
      subst hdc
      simp only [edgeOk] at h2
      rw [Bool.not_eq_true'] at h2
      have h4 := or4_false h2
      rw [h4.2.2.1, h4.2.2.2]
      rfl

theorem edgeM_dotStop {r r2 : List Char} (h : edgeM r r2)
    (hd : ∀ c, r.head? = some c → c ≠ '.') :
    ∀ c, r2.head? = some c → c ≠ '.' := by
  intro c hc
  rcases h with h | ⟨_, h2⟩
  · exact hd c (h.trans hc)
  · cases r2 with
    | nil => cases hc
    | cons d ds =>
      have hdc := Option.some.inj hc
      subst hdc
      simp only [edgeOk] at h2
      rw [Bool.not_eq_true'] at h2
      exact of_decide_eq_false (or4_false h2).2.1

/-- A rest that cannot begin an exponent is returned unchanged. -/
theorem numExpPart_stop {acc r2 : List Char}
    (h : ∀ c, r2.head? = some c →
      (decide (c = 'e') || decide (c = 'E')) = false) :
    numExpPart acc r2 = some (acc, r2) := by
  cases r2 with
  | nil => rfl
  | cons c cs =>
    simp only [numExpPart]
    rw [h c rfl]
    simp

/-- A rest that cannot begin a fraction or an exponent is returned
unchanged. -/
theorem numFracPart_stop {acc r2 : List Char}
    (hdot : ∀ c, r2.head? = some c → c ≠ '.')
    (h : ∀ c, r2.head? = some c →
      (decide (c = 'e') || decide (c = 'E')) = false) :
    numFracPart acc r2 = some (acc, r2) := by
  cases r2 with
  | nil => exact numExpPart_stop h
  | cons c cs =>
    simp only [numFracPart]
    rw [if_neg (hdot c rfl)]
    exact numExpPart_stop h

/-- A successful exponent scan consumes a prefix, its lexeme is the
consumed input, and the same scan succeeds against any rest that cannot
extend a number. -/
theorem numExpPart_replay {acc s out r : List Char}
    (h : numExpPart acc s = some (out, r)) :
    ∃ u, s = u ++ r ∧ out = acc ++ u ∧
      (u = [] ∨ (goodEnd u ∧ ∃ c0, u.head? = some c0 ∧
        (decide (c0 = 'e') || decide (c0 = 'E')) = true)) ∧
      ∀ r2, edgeM r r2 → numExpPart acc (u ++ r2) = some (acc ++ u, r2) := by
  cases s with
  | nil =>
    simp only [numExpPart] at h
    injection h with hp
    injection hp with h1 h2
    subst h1
    subst h2
    refine ⟨[], rfl, (List.append_nil acc).symm, Or.inl rfl, ?_⟩
    intro r2 hedge
    have hstop := edgeM_expStop hedge (fun c0 hc0 => by cases hc0)
    simp only [List.nil_append, List.append_nil]
    exact numExpPart_stop hstop
  | cons c cs =>
    simp only [numExpPart] at h
    by_cases hc : (decide (c = 'e') || decide (c = 'E')) = true
    · rw [if_pos hc] at h
      cases cs with
      | nil => exact absurd h (by simp)
      | cons d cs2 =>
        simp only [] at h
        by_cases hd : (decide (d = '+') || decide (d = '-')) = true
        · rw [if_pos hd] at h
          by_cases hemp : (cs2.takeWhile isDig).isEmpty = true
          · rw [if_pos hemp] at h
            exact absurd h (by simp)
          · rw [if_neg hemp] at h
            injection h with hp
            injection hp with h1 h2
            subst h1
            subst h2
            have hne : cs2.takeWhile isDig ≠ [] := by
              intro h0
              rw [h0] at hemp
              exact hemp rfl
            refine ⟨c :: d :: cs2.takeWhile isDig, ?_, rfl, ?_, ?_⟩
            · show c :: d :: cs2 =
                c :: d :: (cs2.takeWhile isDig ++ cs2.dropWhile isDig)
              rw [List.takeWhile_append_dropWhile]
            · exact Or.inr ⟨goodEnd_cons (goodEnd_cons
                (goodEnd_takeWhile hne)), c, rfl, hc⟩
            · intro r2 hedge
              have hdig := edgeM_digStop hedge
                (fun c0 hc0 => head?_dropWhile_false hc0)
              show numExpPart acc (c :: d :: (cs2.takeWhile isDig ++ r2)) =
                some (acc ++ c :: d :: cs2.takeWhile isDig, r2)
              simp only [numExpPart]
              rw [if_pos hc, if_pos hd,
                takeWhile_append_all (fun x hx => List.mem_takeWhile_imp hx),
                hdig.1, List.append_nil,
                dropWhile_append_all (fun x hx => List.mem_takeWhile_imp hx),
                hdig.2]
              rw [if_neg hemp]
        · rw [if_neg hd] at h
          by_cases hemp : ((d :: cs2).takeWhile isDig).isEmpty = true
          · rw [if_pos hemp] at h
            exact absurd h (by simp)
          · rw [if_neg hemp] at h
            injection h with hp
            injection hp with h1 h2
            subst h1
            subst h2
            have hne : (d :: cs2).takeWhile isDig ≠ [] := by
              intro h0
              rw [h0] at hemp
              exact hemp rfl
            refine ⟨c :: (d :: cs2).takeWhile isDig, ?_, rfl, ?_, ?_⟩
            · show c :: (d :: cs2) =
                c :: ((d :: cs2).takeWhile isDig ++ (d :: cs2).dropWhile isDig)
              rw [List.takeWhile_append_dropWhile]
            · exact Or.inr ⟨goodEnd_cons (goodEnd_takeWhile hne), c, rfl, hc⟩
            · intro r2 hedge
              have hdig := edgeM_digStop hedge
                (fun c0 hc0 => head?_dropWhile_false hc0)
              show numExpPart acc (c :: ((d :: cs2).takeWhile isDig ++ r2)) =
                some (acc ++ c :: (d :: cs2).takeWhile isDig, r2)
              have hhd : ∃ ds0, (d :: cs2).takeWhile isDig = d :: ds0 := by
                by_cases hdd : isDig d = true
                · exact ⟨cs2.takeWhile isDig,
                    by rw [List.takeWhile_cons, if_pos hdd]⟩
                · exfalso
                  apply hne
                  rw [List.takeWhile_cons, if_neg hdd]
              obtain ⟨ds0, hds0⟩ := hhd
              rw [hds0]
              simp only [numExpPart, List.cons_append]
              rw [if_pos hc, if_neg hd]
              have htw2 : (d :: (ds0 ++ r2)).takeWhile isDig =
                  (d :: ds0) ++ r2.takeWhile isDig := by
                rw [show d :: (ds0 ++ r2) = (d :: ds0) ++ r2 from rfl]
                exact takeWhile_append_all (fun x hx => by
                  rw [← hds0] at hx
                  exact List.mem_takeWhile_imp hx)
              have hdw2 : (d :: (ds0 ++ r2)).dropWhile isDig =
                  r2.dropWhile isDig := by
                rw [show d :: (ds0 ++ r2) = (d :: ds0) ++ r2 from rfl]
                exact dropWhile_append_all (fun x hx => by
                  rw [← hds0] at hx
                  exact List.mem_takeWhile_imp hx)
              rw [htw2, hdig.1, List.append_nil, hdw2, hdig.2, ← hds0,
                if_neg hemp]
    · rw [if_neg hc] at h
      injection h with hp
      injection hp with h1 h2
      subst h1
      subst h2
      refine ⟨[], rfl, (List.append_nil acc).symm, Or.inl rfl, ?_⟩
      intro r2 hedge
      have hstop := edgeM_expStop hedge (fun c0 hc0 => by
        have hcc := Option.some.inj hc0
        subst hcc
        exact eq_false_of_ne_true hc)
      simp only [List.nil_append, List.append_nil]
      exact numExpPart_stop hstop

theorem expHead_notDig {c0 : Char}
    (h : (decide (c0 = 'e') || decide (c0 = 'E')) = true) :
    isDig c0 = false := by
  rcases orE h with h | h
  · rw [of_decide_eq_true h]
    rfl
  · rw [of_decide_eq_true h]
    rfl

theorem fracHead_notDig {c0 : Char}
    (h : (decide (c0 = '.') || decide (c0 = 'e') ||
      decide (c0 = 'E')) = true) : isDig c0 = false := by
  rcases orE h with h | h
  · rcases orE h with h | h
    · rw [of_decide_eq_true h]
      rfl
    · rw [of_decide_eq_true h]
      rfl
  · rw [of_decide_eq_true h]
    rfl

/-- After the digits of a number, a transplanted rest splits the same
way: the digit run is unchanged and the rest follows it. -/
theorem splitDigits {cs2 u2 r r2 : List Char}
    (hs : cs2.dropWhile isDig = u2 ++ r)
    (hmark : u2 = [] ∨ ∃ c0, u2.head? = some c0 ∧ isDig c0 = false)
    (hedge : edgeM r r2) :
    (cs2.takeWhile isDig ++ (u2 ++ r2)).takeWhile isDig =
      cs2.takeWhile isDig ∧
    (cs2.takeWhile isDig ++ (u2 ++ r2)).dropWhile isDig = u2 ++ r2 := by
  have htw : ∀ x ∈ cs2.takeWhile isDig, isDig x = true :=
    fun x hx => List.mem_takeWhile_imp hx
  rcases hmark with rfl | ⟨c0, hc0, hcd⟩
  · have hr : cs2.dropWhile isDig = r := by simpa using hs
    have hdig := edgeM_digStop hedge
      (fun y hy => head?_dropWhile_false (by rw [hr]; exact hy))
    constructor
    · rw [takeWhile_append_all htw]
      simp only [List.nil_append]
      rw [hdig.1, List.append_nil]
    · rw [dropWhile_append_all htw]
      simp only [List.nil_append]
      exact hdig.2
  · obtain ⟨u2t, rfl⟩ : ∃ t, u2 = c0 :: t := by
      cases u2 with
      | nil => cases hc0
      | cons x xs => exact ⟨xs, by rw [Option.some.inj hc0]⟩
    constructor
    · rw [takeWhile_append_all htw, List.cons_append, List.takeWhile_cons,
        hcd]
      simp
    · rw [dropWhile_append_all htw, List.cons_append, List.dropWhile_cons,
        hcd]
      simp

/-- A successful fraction-exponent scan consumes a prefix, appends it to
the lexeme, and replays against any rest that cannot extend a number. -/
theorem numFracPart_replay {acc s out r : List Char}
    (h : numFracPart acc s = some (out, r)) :
    ∃ u, s = u ++ r ∧ out = acc ++ u ∧
      (u = [] ∨ (goodEnd u ∧ ∃ c0, u.head? = some c0 ∧
        (decide (c0 = '.') || decide (c0 = 'e') ||
          decide (c0 = 'E')) = true)) ∧
      ∀ r2, edgeM r r2 → numFracPart acc (u ++ r2) = some (acc ++ u, r2) := by
  cases s with
  | nil =>
    simp only [numFracPart, numExpPart] at h
    injection h with hp
    injection hp with h1 h2
    subst h1
    subst h2
    refine ⟨[], rfl, (List.append_nil acc).symm, Or.inl rfl, ?_⟩
    intro r2 hedge
    have hstop := edgeM_expStop hedge (fun c0 hc0 => by cases hc0)
    have hdot := edgeM_dotStop hedge (fun c0 hc0 => by cases hc0)
    simp only [List.nil_append, List.append_nil]
    exact numFracPart_stop hdot hstop
  | cons c cs =>
    simp only [numFracPart] at h
    by_cases hc : c = '.'
    · rw [if_pos hc] at h
      by_cases hemp : (cs.takeWhile isDig).isEmpty = true
      · rw [if_pos hemp] at h
        exact absurd h (by simp)
      · rw [if_neg hemp] at h
        obtain ⟨u2, hs2, hout, hu2, hre2⟩ := numExpPart_replay h
        have hne : cs.takeWhile isDig ≠ [] := by
          intro h0
          rw [h0] at hemp
          exact hemp rfl
        have hmark : u2 = [] ∨ ∃ c0, u2.head? = some c0 ∧
            isDig c0 = false := by
          rcases hu2 with rfl | ⟨_, c0, hc0, he0⟩
          · exact Or.inl rfl
          · exact Or.inr ⟨c0, hc0, expHead_notDig he0⟩
        refine ⟨c :: (cs.takeWhile isDig ++ u2), ?_, ?_, ?_, ?_⟩
        · show c :: cs = c :: ((cs.takeWhile isDig ++ u2) ++ r)
          rw [List.append_assoc, ← hs2, List.takeWhile_append_dropWhile]
        · rw [hout]
          simp [List.append_assoc]
        · refine Or.inr ⟨?_, c, rfl, by rw [hc]; rfl⟩
          rcases hu2 with rfl | ⟨hg2, _⟩
          · rw [List.append_nil]
            exact goodEnd_cons (goodEnd_takeWhile hne)
          · exact goodEnd_cons (goodEnd_append hg2)
        · intro r2 hedge
          have hsplit := splitDigits hs2 hmark hedge
          show numFracPart acc (c :: ((cs.takeWhile isDig ++ u2) ++ r2)) = _
          simp only [numFracPart]
          rw [if_pos hc, List.append_assoc, hsplit.1, hsplit.2, if_neg hemp,
            hre2 r2 hedge]
          simp [List.append_assoc]
    · rw [if_neg hc] at h
      obtain ⟨u2, hs2, hout, hu2, hre2⟩ := numExpPart_replay h
      refine ⟨u2, hs2, hout, ?_, ?_⟩
      · rcases hu2 with rfl | ⟨hg2, c0, hc0, he0⟩
        · exact Or.inl rfl
        · refine Or.inr ⟨hg2, c0, hc0, ?_⟩
          rcases orE he0 with h0 | h0
          · rw [of_decide_eq_true h0]
            rfl
          · rw [of_decide_eq_true h0]
            rfl
      · intro r2 hedge
        rcases hu2 with rfl | ⟨hg2, c0, hc0, he0⟩
        · have hr : r = c :: cs := by simpa using hs2.symm
          have hdot := edgeM_dotStop hedge (fun x hx => by
            rw [hr] at hx
            rw [Option.some.inj hx] at hc
            exact hc)
          have h3 := hre2 r2 hedge
          simp only [List.nil_append, List.append_nil] at h3 ⊢
          cases r2 with
          | nil => simp [numFracPart, numExpPart]
          | cons d ds =>
            simp only [numFracPart]
            rw [if_neg (hdot d rfl)]
            exact h3
        · obtain ⟨u2t, rfl⟩ : ∃ t, u2 = c0 :: t := by
            cases u2 with
            | nil => cases hc0
            | cons x xs => exact ⟨xs, by rw [Option.some.inj hc0]⟩
          have hcdot : c0 ≠ '.' := by
            intro h0
            subst h0
            rcases orE he0 with h0 | h0 <;> cases h0
          show numFracPart acc (c0 :: (u2t ++ r2)) = _
          simp only [numFracPart]
          rw [if_neg hcdot]
          exact hre2 r2 hedge

/-- A successful number scan: the lexeme is exactly the consumed input,
it ends in a character that can end a value, and the same scan succeeds
against any rest that cannot extend a number. -/
theorem parseNum_replay {s lex r : List Char}
    (h : parseNum s = some (lex, r)) :
    s = lex ++ r ∧ goodEnd lex ∧
      ∀ r2, edgeM r r2 → parseNum (lex ++ r2) = some (lex, r2) := by
  cases s with
  | nil => cases h
  | cons c cs =>
    simp only [parseNum] at h
    by_cases hneg : c = '-'
    · rw [if_pos hneg] at h
      cases cs with
      | nil => cases h
      | cons d cs2 =>
        simp only [] at h
        by_cases hd0 : d = '0'
        · rw [if_pos hd0] at h
          obtain ⟨u2, hs2, hout, hu2, hre2⟩ := numFracPart_replay h
          have hmark : u2 = [] ∨ ∃ c0, u2.head? = some c0 ∧
              isDig c0 = false := by
            rcases hu2 with rfl | ⟨_, c0, hc0, he0⟩
            · exact Or.inl rfl
            · exact Or.inr ⟨c0, hc0, fracHead_notDig he0⟩
          subst hout
          refine ⟨?_, ?_, ?_⟩
          · show c :: d :: cs2 = (['-', '0'] ++ u2) ++ r
            rw [hneg, hd0, List.append_assoc, ← hs2]
            rfl
          · rcases hu2 with rfl | ⟨hg2, _⟩
            · exact ⟨'0', rfl, by decide⟩
            · exact goodEnd_append hg2
          · intro r2 hedge
            show parseNum ('-' :: '0' :: (u2 ++ r2)) =
              some (['-', '0'] ++ u2, r2)
            simp only [parseNum]
            simp only [if_true]
            exact hre2 r2 hedge
        · rw [if_neg hd0] at h
          by_cases hdd : isDig d = true
          · rw [if_pos hdd] at h
            obtain ⟨u2, hs2, hout, hu2, hre2⟩ := numFracPart_replay h
            have hmark : u2 = [] ∨ ∃ c0, u2.head? = some c0 ∧
                isDig c0 = false := by
              rcases hu2 with rfl | ⟨_, c0, hc0, he0⟩
              · exact Or.inl rfl
              · exact Or.inr ⟨c0, hc0, fracHead_notDig he0⟩
            subst hout
            refine ⟨?_, ?_, ?_⟩
            · rw [hneg]
              show '-' :: d :: cs2 =
                (('-' :: d :: cs2.takeWhile isDig) ++ u2) ++ r
              show '-' :: d :: cs2 =
                '-' :: d :: ((cs2.takeWhile isDig ++ u2) ++ r)
              rw [List.append_assoc, ← hs2, List.takeWhile_append_dropWhile]
            · rcases hu2 with rfl | ⟨hg2, _⟩
              · rw [List.append_nil]
                apply goodEnd_cons
                by_cases htwe : cs2.takeWhile isDig = []
                · rw [htwe]
                  exact ⟨d, rfl, endOk_of_isDig hdd⟩
                · exact goodEnd_cons (goodEnd_takeWhile htwe)
              · exact goodEnd_append hg2
            · intro r2 hedge
              have hsplit := splitDigits hs2 hmark hedge
              show parseNum
                ('-' :: d :: ((cs2.takeWhile isDig ++ u2) ++ r2)) = _
              simp only [parseNum]
              simp only [if_true]
              rw [if_neg hd0, if_pos hdd, List.append_assoc, hsplit.1,
                hsplit.2]
              exact hre2 r2 hedge
          · rw [if_neg hdd] at h
            cases h
    · rw [if_neg hneg] at h
      by_cases hc0 : c = '0'
      · rw [if_pos hc0] at h
        obtain ⟨u2, hs2, hout, hu2, hre2⟩ := numFracPart_replay h
        subst hout
        refine ⟨?_, ?_, ?_⟩
        · show c :: cs = (['0'] ++ u2) ++ r
          rw [hc0, List.append_assoc, ← hs2]
          rfl
        · rcases hu2 with rfl | ⟨hg2, _⟩
          · exact ⟨'0', rfl, by decide⟩
          · exact goodEnd_append hg2
        · intro r2 hedge
          show parseNum ('0' :: (u2 ++ r2)) = some (['0'] ++ u2, r2)
          simp only [parseNum]
          simp only [if_true, if_false]
          exact hre2 r2 hedge
      · rw [if_neg hc0] at h
        by_cases hdd : isDig c = true
        · rw [if_pos hdd] at h
          obtain ⟨u2, hs2, hout, hu2, hre2⟩ := numFracPart_replay h
          have hmark : u2 = [] ∨ ∃ c0, u2.head? = some c0 ∧
              isDig c0 = false := by
            rcases hu2 with rfl | ⟨_, c0, hc0, he0⟩
            · exact Or.inl rfl
            · exact Or.inr ⟨c0, hc0, fracHead_notDig he0⟩
          subst hout
          refine ⟨?_, ?_, ?_⟩
          · show c :: cs = ((c :: cs.takeWhile isDig) ++ u2) ++ r
            show c :: cs = c :: ((cs.takeWhile isDig ++ u2) ++ r)
            rw [List.append_assoc, ← hs2, List.takeWhile_append_dropWhile]
          · rcases hu2 with rfl | ⟨hg2, _⟩
            · rw [List.append_nil]
              by_cases htwe : cs.takeWhile isDig = []
              · rw [htwe]
                exact ⟨c, rfl, endOk_of_isDig hdd⟩
              · exact goodEnd_cons (goodEnd_takeWhile htwe)
            · exact goodEnd_append hg2
          · intro r2 hedge
            have hsplit := splitDigits hs2 hmark hedge
            show parseNum (c :: ((cs.takeWhile isDig ++ u2) ++ r2)) = _
            simp only [parseNum]
            rw [if_neg hneg, if_neg hc0, if_pos hdd, List.append_assoc,
              hsplit.1, hsplit.2]
            exact hre2 r2 hedge
        · rw [if_neg hdd] at h
          cases h

theorem tw_all (l : List Char) :
    ∀ x ∈ l.takeWhile isJsonWs, isJsonWs x = true :=
  fun _ hx => List.mem_takeWhile_imp hx

theorem skip_decomp (cs : List Char) :
    cs.takeWhile isJsonWs ++ skipJsonWs cs = cs :=
  List.takeWhile_append_dropWhile isJsonWs cs

theorem skipJsonWs_all_cons {tw : List Char} {d : Char} {rest : List Char}
    (htw : ∀ x ∈ tw, isJsonWs x = true) (hd : isJsonWs d = false) :
    skipJsonWs (tw ++ (d :: rest)) = d :: rest := by
  show List.dropWhile isJsonWs (tw ++ (d :: rest)) = d :: rest
  rw [dropWhile_append_all htw, List.dropWhile_cons, hd]
  simp

theorem leadsWith_decomp {p s : List Char} (h : leadsWith p s = true) :
    ∃ t, s = p ++ t := by
  induction p generalizing s with
  | nil => exact ⟨s, rfl⟩
  | cons x xs ih =>
    cases s with
    | nil => cases h
    | cons y ys =>
      simp only [leadsWith, Bool.and_eq_true, decide_eq_true_eq] at h
      obtain ⟨t, ht⟩ := ih h.2
      refine ⟨t, ?_⟩
      rw [h.1, ht]
      rfl

theorem leadsWith_self_append (p x : List Char) :
    leadsWith p (p ++ x) = true := by
  induction p with
  | nil => rfl
  | cons c cs ih => simp [leadsWith, ih]

/-- Replay for the whole value parser: a success consumes a prefix that
ends in a value-final character, and the very same parse can be re-run,
with any sufficient fuel, against any other rest that cannot extend a
number. -/
theorem parse_replay : ∀ f : Nat,
    (∀ s v r, parseVal f s = some (v, r) →
      ∃ u, s = u ++ r ∧ goodEnd u ∧
        ∀ g r2, u.length < g → edgeM r r2 →
          parseVal g (u ++ r2) = some (v, r2)) ∧
    (∀ s kv r, parseMember f s = some (kv, r) →
      ∃ u, s = u ++ r ∧ goodEnd u ∧
        ∀ g r2, u.length < g → edgeM r r2 →
          parseMember g (u ++ r2) = some (kv, r2)) ∧
    (∀ s acc v r, parseObjTail f s acc = some (v, r) →
      ∃ u, s = u ++ r ∧ goodEnd u ∧
        ∀ g r2, u.length < g → edgeM r r2 →
          parseObjTail g (u ++ r2) acc = some (v, r2)) ∧
    (∀ s acc v r, parseArrTail f s acc = some (v, r) →
      ∃ u, s = u ++ r ∧ goodEnd u ∧
        ∀ g r2, u.length < g → edgeM r r2 →
          parseArrTail g (u ++ r2) acc = some (v, r2)) := by
  intro f
  induction f with
  | zero =>
    refine ⟨?_, ?_, ?_, ?_⟩
    · intro s v r h
      cases h
    · intro s kv r h
      cases h
    · intro s acc v r h
      cases h
    · intro s acc v r h
      cases h
  | succ f ih =>
    obtain ⟨ihV, ihM, ihO, ihA⟩ := ih
    refine ⟨?_, ?_, ?_, ?_⟩
    · -- parseVal
      intro s v r h
      cases s with
      | nil => cases h
      | cons c cs =>
        simp only [parseVal] at h
        by_cases b1 : c = '"'
        · rw [if_pos b1] at h
          cases hstr : parseStrS none SMode.sNorm [] cs with
          | none => rw [hstr] at h; cases h
          | some pr =>
            obtain ⟨cnt, rs⟩ := pr
            rw [hstr] at h
            injection h with hp
            injection hp with hv hr
            subst hv
            subst hr
            obtain ⟨u, hs, hl, hre⟩ :=
              parseStrS_replay cs none SMode.sNorm [] cnt rs hstr
            refine ⟨c :: u, by rw [hs]; rfl, goodEnd_cons ⟨'"', hl, rfl⟩, ?_⟩
            intro g r2 hg hedge
            cases g with
            | zero => omega
            | succ g2 =>
              show parseVal (g2 + 1) (c :: (u ++ r2)) = _
              simp only [parseVal]
              rw [if_pos b1, hre r2]
        · rw [if_neg b1] at h
          by_cases b2 : c = '\x7b'
          · rw [if_pos b2] at h
            cases hsk : skipJsonWs cs with
            | nil => rw [hsk] at h; cases h
            | cons d ds =>
              rw [hsk] at h
              simp only [] at h
              have hdnw : isJsonWs d = false := by
                refine head?_dropWhile_false (p := isJsonWs) (l := cs) ?_
                rw [show List.dropWhile isJsonWs cs = d :: ds from hsk]
                rfl
              by_cases b3 : d = '\x7d'
              · rw [if_pos b3] at h
                injection h with hp
                injection hp with hv hr
                subst hv
                subst hr
                refine ⟨c :: (cs.takeWhile isJsonWs ++ [d]), ?_,
                  goodEnd_cons (goodEnd_append ⟨d, rfl, by rw [b3]; rfl⟩), ?_⟩
                · show c :: cs =
                    c :: ((cs.takeWhile isJsonWs ++ [d]) ++ ds)
                  rw [List.append_assoc]
                  show c :: cs = c :: (cs.takeWhile isJsonWs ++ (d :: ds))
                  rw [← hsk, skip_decomp]
                · intro g r2 hg hedge
                  cases g with
                  | zero => omega
                  | succ g2 =>
                    show parseVal (g2 + 1)
                      (c :: ((cs.takeWhile isJsonWs ++ [d]) ++ r2)) = _
                    simp only [parseVal]
                    rw [if_neg b1, if_pos b2]
                    simp only [List.append_assoc, List.cons_append,
                      List.nil_append]
                    rw [skipJsonWs_all_cons (tw_all cs) hdnw]
                    simp only []
                    rw [if_pos b3]
              · rw [if_neg b3] at h
                cases hm : parseMember f (d :: ds) with
                | none => rw [hm] at h; cases h
                | some pr =>
                  obtain ⟨kv, rm⟩ := pr
                  rw [hm] at h
                  obtain ⟨u1, hs1, hg1, hre1⟩ := ihM _ _ _ hm
                  obtain ⟨u2, hs2, hg2, hre2⟩ := ihO _ _ _ _ h
                  obtain ⟨u1t, rfl⟩ : ∃ t, u1 = d :: t := by
                    cases u1 with
                    | nil => exact absurd rfl (goodEnd_ne_nil hg1)
                    | cons x xs =>
                      injection hs1 with hxd hrest
                      exact ⟨xs, by rw [hxd]⟩
                  obtain ⟨e, u2t, rfl, henw⟩ :
                      ∃ e t, u2 = e :: t ∧ isJsonWs e = false := by
                    cases u2 with
                    | nil => exact absurd rfl (goodEnd_ne_nil hg2)
                    | cons x xs =>
                      refine ⟨x, xs, rfl,
                        head?_dropWhile_false (p := isJsonWs) (l := rm) ?_⟩
                      rw [show List.dropWhile isJsonWs rm = (x :: xs) ++ r
                        from hs2]
                      rfl
                  refine ⟨c :: (cs.takeWhile isJsonWs ++ ((d :: u1t) ++
                    (rm.takeWhile isJsonWs ++ (e :: u2t)))), ?_,
                    goodEnd_cons (goodEnd_append (goodEnd_append
                      (goodEnd_append hg2))), ?_⟩
                  · show c :: cs = c :: ((cs.takeWhile isJsonWs ++
                      ((d :: u1t) ++ (rm.takeWhile isJsonWs ++
                        (e :: u2t)))) ++ r)
                    rw [List.append_assoc, List.append_assoc,
                      List.append_assoc, ← hs2, skip_decomp, ← hs1, ← hsk,
                      skip_decomp]
                  · intro g r2 hg hedge
                    cases g with
                    | zero => omega
                    | succ g2 =>
                      have hlen := hg
                      simp only [List.length_cons, List.length_append]
                        at hlen
                      show parseVal (g2 + 1) (c :: ((cs.takeWhile isJsonWs ++
                        ((d :: u1t) ++ (rm.takeWhile isJsonWs ++
                          (e :: u2t)))) ++ r2)) = _
                      simp only [parseVal]
                      rw [if_neg b1, if_pos b2]
                      simp only [List.append_assoc, List.cons_append]
                      rw [skipJsonWs_all_cons (tw_all cs) hdnw]
                      simp only []
                      rw [if_neg b3]
                      have hedge1 : edgeM rm
                          ((rm.takeWhile isJsonWs ++ (e :: u2t)) ++ r2) := by
                        refine Or.inl ?_
                        have hrm : rm = (rm.takeWhile isJsonWs ++ (e :: u2t)) ++ r := by
                          rw [List.append_assoc, ← hs2, skip_decomp]
                        conv_lhs => rw [hrm]
                        refine head?_append_same ?_
                        intro h0
                        rcases List.append_eq_nil.mp h0 with ⟨_, h02⟩
                        cases h02
                      have hM := hre1 g2
                        ((rm.takeWhile isJsonWs ++ (e :: u2t)) ++ r2)
                        (by simp only [List.length_cons]; omega) hedge1
                      simp only [List.append_assoc, List.cons_append] at hM
                      rw [hM]
                      simp only []
                      rw [skipJsonWs_all_cons (tw_all rm) henw]
                      have hO := hre2 g2 r2
                        (by simp only [List.length_cons]; omega) hedge
                      simp only [List.cons_append] at hO
                      rw [hO]
          · rw [if_neg b2] at h
            by_cases b3 : c = '['
            · rw [if_pos b3] at h
              cases hsk : skipJsonWs cs with
              | nil => rw [hsk] at h; cases h
              | cons d ds =>
                rw [hsk] at h
                simp only [] at h
                have hdnw : isJsonWs d = false := by
                  refine head?_dropWhile_false (p := isJsonWs) (l := cs) ?_
                  rw [show List.dropWhile isJsonWs cs = d :: ds from hsk]
                  rfl
                by_cases b4 : d = ']'
                · rw [if_pos b4] at h
                  injection h with hp
                  injection hp with hv hr
                  subst hv
                  subst hr
                  refine ⟨c :: (cs.takeWhile isJsonWs ++ [d]), ?_,
                    goodEnd_cons (goodEnd_append
                      ⟨d, rfl, by rw [b4]; rfl⟩), ?_⟩
                  · show c :: cs =
                      c :: ((cs.takeWhile isJsonWs ++ [d]) ++ ds)
                    rw [List.append_assoc]
                    show c :: cs = c :: (cs.takeWhile isJsonWs ++ (d :: ds))
                    rw [← hsk, skip_decomp]
                  · intro g r2 hg hedge
                    cases g with
                    | zero => omega
                    | succ g2 =>
                      show parseVal (g2 + 1)
                        (c :: ((cs.takeWhile isJsonWs ++ [d]) ++ r2)) = _
                      simp only [parseVal]
                      rw [if_neg b1, if_neg b2, if_pos b3]
                      simp only [List.append_assoc, List.cons_append,
                        List.nil_append]
                      rw [skipJsonWs_all_cons (tw_all cs) hdnw]
                      simp only []
                      rw [if_pos b4]
                · rw [if_neg b4] at h
                  cases hm : parseVal f (d :: ds) with
                  | none => rw [hm] at h; cases h
                  | some pr =>
                    obtain ⟨v1, rm⟩ := pr
                    rw [hm] at h
                    obtain ⟨u1, hs1, hg1, hre1⟩ := ihV _ _ _ hm
                    obtain ⟨u2, hs2, hg2, hre2⟩ := ihA _ _ _ _ h
                    obtain ⟨u1t, rfl⟩ : ∃ t, u1 = d :: t := by
                      cases u1 with
                      | nil => exact absurd rfl (goodEnd_ne_nil hg1)
                      | cons x xs =>
                        injection hs1 with hxd hrest
                        exact ⟨xs, by rw [hxd]⟩
                    obtain ⟨e, u2t, rfl, henw⟩ :
                        ∃ e t, u2 = e :: t ∧ isJsonWs e = false := by
                      cases u2 with
                      | nil => exact absurd rfl (goodEnd_ne_nil hg2)
                      | cons x xs =>
                        refine ⟨x, xs, rfl,
                          head?_dropWhile_false (p := isJsonWs) (l := rm) ?_⟩
                        rw [show List.dropWhile isJsonWs rm = (x :: xs) ++ r
                          from hs2]
                        rfl
                    refine ⟨c :: (cs.takeWhile isJsonWs ++ ((d :: u1t) ++
                      (rm.takeWhile isJsonWs ++ (e :: u2t)))), ?_,
                      goodEnd_cons (goodEnd_append (goodEnd_append
                        (goodEnd_append hg2))), ?_⟩
                    · show c :: cs = c :: ((cs.takeWhile isJsonWs ++
                        ((d :: u1t) ++ (rm.takeWhile isJsonWs ++
                          (e :: u2t)))) ++ r)
                      rw [List.append_assoc, List.append_assoc,
                        List.append_assoc, ← hs2, skip_decomp, ← hs1, ← hsk,
                        skip_decomp]
                    · intro g r2 hg hedge
                      cases g with
                      | zero => omega
                      | succ g2 =>
                        have hlen := hg
                        simp only [List.length_cons, List.length_append]
                          at hlen
                        show parseVal (g2 + 1)
                          (c :: ((cs.takeWhile isJsonWs ++ ((d :: u1t) ++
                            (rm.takeWhile isJsonWs ++ (e :: u2t)))) ++ r2)) =
                          _
                        simp only [parseVal]
                        rw [if_neg b1, if_neg b2, if_pos b3]
                        simp only [List.append_assoc, List.cons_append]
                        rw [skipJsonWs_all_cons (tw_all cs) hdnw]
                        simp only []
                        rw [if_neg b4]
                        have hedge1 : edgeM rm
                            ((rm.takeWhile isJsonWs ++ (e :: u2t)) ++ r2) := by
                          refine Or.inl ?_
                          have hrm : rm = (rm.takeWhile isJsonWs ++ (e :: u2t)) ++ r := by
                            rw [List.append_assoc, ← hs2, skip_decomp]
                          conv_lhs => rw [hrm]
                          refine head?_append_same ?_
                          intro h0
                          rcases List.append_eq_nil.mp h0 with ⟨_, h02⟩
                          cases h02
                        have hM := hre1 g2
                          ((rm.takeWhile isJsonWs ++ (e :: u2t)) ++ r2)
                          (by simp only [List.length_cons]; omega) hedge1
                        simp only [List.append_assoc, List.cons_append] at hM
                        rw [hM]
                        simp only []
                        rw [skipJsonWs_all_cons (tw_all rm) henw]
                        have hO := hre2 g2 r2
                          (by simp only [List.length_cons]; omega) hedge
                        simp only [List.cons_append] at hO
                        rw [hO]
            · rw [if_neg b3] at h
              by_cases b4 : c = 't'
              · rw [if_pos b4] at h
                by_cases bt : leadsWith "rue".data cs = true
                · rw [if_pos bt] at h
                  injection h with hp
                  injection hp with hv hr
                  subst hv
                  subst hr
                  obtain ⟨t2, rfl⟩ := leadsWith_decomp bt
                  refine ⟨c :: "rue".data, rfl, ⟨'e', rfl, rfl⟩, ?_⟩
                  intro g r2 hg hedge
                  cases g with
                  | zero => omega
                  | succ g2 =>
                    show parseVal (g2 + 1) (c :: ("rue".data ++ r2)) = _
                    simp only [parseVal]
                    rw [if_neg b1, if_neg b2, if_neg b3, if_pos b4,
                      if_pos (leadsWith_self_append "rue".data r2)]
                    rfl
                · rw [if_neg bt] at h
                  cases h
              · rw [if_neg b4] at h
                by_cases b5 : c = 'f'
                · rw [if_pos b5] at h
                  by_cases bt : leadsWith "alse".data cs = true
                  · rw [if_pos bt] at h
                    injection h with hp
                    injection hp with hv hr
                    subst hv
                    subst hr
                    obtain ⟨t2, rfl⟩ := leadsWith_decomp bt
                    refine ⟨c :: "alse".data, rfl, ⟨'e', rfl, rfl⟩, ?_⟩
                    intro g r2 hg hedge
                    cases g with
                    | zero => omega
                    | succ g2 =>
                      show parseVal (g2 + 1) (c :: ("alse".data ++ r2)) = _
                      simp only [parseVal]
                      rw [if_neg b1, if_neg b2, if_neg b3, if_neg b4,
                        if_pos b5,
                        if_pos (leadsWith_self_append "alse".data r2)]
                      rfl
                  · rw [if_neg bt] at h
                    cases h
                · rw [if_neg b5] at h
                  by_cases b6 : c = 'n'
                  · rw [if_pos b6] at h
                    by_cases bt : leadsWith "ull".data cs = true
                    · rw [if_pos bt] at h
                      injection h with hp
                      injection hp with hv hr
                      subst hv
                      subst hr
                      obtain ⟨t2, rfl⟩ := leadsWith_decomp bt
                      refine ⟨c :: "ull".data, rfl, ⟨'l', rfl, rfl⟩, ?_⟩
                      intro g r2 hg hedge
                      cases g with
                      | zero => omega
                      | succ g2 =>
                        show parseVal (g2 + 1) (c :: ("ull".data ++ r2)) = _
                        simp only [parseVal]
                        rw [if_neg b1, if_neg b2, if_neg b3, if_neg b4,
                          if_neg b5, if_pos b6,
                          if_pos (leadsWith_self_append "ull".data r2)]
                        rfl
                    · rw [if_neg bt] at h
                      cases h
                  · rw [if_neg b6] at h
                    by_cases b7 : (decide (c = '-') || isDig c) = true
                    · rw [if_pos b7] at h
                      cases hn : parseNum (c :: cs) with
                      | none => rw [hn] at h; cases h
                      | some pr =>
                        obtain ⟨lex, rn⟩ := pr
                        rw [hn] at h
                        injection h with hp
                        injection hp with hv hr
                        subst hv
                        subst hr
                        obtain ⟨hsN, hgN, hreN⟩ := parseNum_replay hn
                        obtain ⟨lext, rfl⟩ : ∃ t, lex = c :: t := by
                          cases lex with
                          | nil => exact absurd rfl (goodEnd_ne_nil hgN)
                          | cons x xs =>
                            injection hsN with hxc hrest
                            exact ⟨xs, by rw [hxc]⟩
                        refine ⟨c :: lext, hsN, hgN, ?_⟩
                        intro g r2 hg hedge
                        cases g with
                        | zero => omega
                        | succ g2 =>
                          show parseVal (g2 + 1) (c :: (lext ++ r2)) = _
                          simp only [parseVal]
                          rw [if_neg b1, if_neg b2, if_neg b3, if_neg b4,
                            if_neg b5, if_neg b6, if_pos b7]
                          have hN := hreN r2 hedge
                          simp only [List.cons_append] at hN
                          rw [hN]
                    · rw [if_neg b7] at h
                      cases h
    · -- parseMember
      intro s kv r h
      cases s with
      | nil => cases h
      | cons c cs =>
        simp only [parseMember] at h
        by_cases b1 : c = '"'
        · rw [if_pos b1] at h
          cases hstr : parseStrS none SMode.sNorm [] cs with
          | none => rw [hstr] at h; cases h
          | some pr =>
            obtain ⟨k, rs⟩ := pr
            rw [hstr] at h
            simp only [] at h
            cases hsk : skipJsonWs rs with
            | nil => rw [hsk] at h; cases h
            | cons d rr =>
              rw [hsk] at h
              simp only [] at h
              have hdnw : isJsonWs d = false := by
                refine head?_dropWhile_false (p := isJsonWs) (l := rs) ?_
                rw [show List.dropWhile isJsonWs rs = d :: rr from hsk]
                rfl
              by_cases b2 : d = ':'
              · rw [if_pos b2] at h
                cases hv : parseVal f (skipJsonWs rr) with
                | none => rw [hv] at h; cases h
                | some pr2 =>
                  obtain ⟨v, r3⟩ := pr2
                  rw [hv] at h
                  injection h with hp
                  injection hp with hkv hr
                  subst hkv
                  subst hr
                  obtain ⟨u0, hs0, hl0, hre0⟩ :=
                    parseStrS_replay cs none SMode.sNorm [] k rs hstr
                  obtain ⟨u3, hs3, hg3, hre3⟩ := ihV _ _ _ hv
                  obtain ⟨e3, u3t, rfl, h3nw⟩ :
                      ∃ e t, u3 = e :: t ∧ isJsonWs e = false := by
                    cases u3 with
                    | nil => exact absurd rfl (goodEnd_ne_nil hg3)
                    | cons x xs =>
                      refine ⟨x, xs, rfl,
                        head?_dropWhile_false (p := isJsonWs) (l := rr) ?_⟩
                      rw [show List.dropWhile isJsonWs rr = (x :: xs) ++ r3
                        from hs3]
                      rfl
                  refine ⟨c :: (u0 ++ (rs.takeWhile isJsonWs ++ (d ::
                    (rr.takeWhile isJsonWs ++ (e3 :: u3t))))), ?_,
                    goodEnd_cons (goodEnd_append (goodEnd_append
                      (goodEnd_cons (goodEnd_append hg3)))), ?_⟩
                  · show c :: cs = c :: ((u0 ++ (rs.takeWhile isJsonWs ++
                      (d :: (rr.takeWhile isJsonWs ++ (e3 :: u3t))))) ++ r3)
                    simp only [List.append_assoc, List.cons_append]
                    rw [show e3 :: (u3t ++ r3) = skipJsonWs rr from by
                      rw [hs3, List.cons_append],
                      skip_decomp, ← hsk, skip_decomp, ← hs0]
                  · intro g r2 hg hedge
                    cases g with
                    | zero => omega
                    | succ g2 =>
                      have hlen := hg
                      simp only [List.length_cons, List.length_append]
                        at hlen
                      show parseMember (g2 + 1) (c :: ((u0 ++
                        (rs.takeWhile isJsonWs ++ (d ::
                          (rr.takeWhile isJsonWs ++ (e3 :: u3t))))) ++ r2)) =
                        _
                      simp only [parseMember]
                      rw [if_pos b1]
                      simp only [List.append_assoc, List.cons_append]
                      rw [hre0 (rs.takeWhile isJsonWs ++ (d ::
                        (rr.takeWhile isJsonWs ++ (e3 :: (u3t ++ r2)))))]
                      simp only []
                      rw [skipJsonWs_all_cons (tw_all rs) hdnw]
                      simp only []
                      rw [if_pos b2]
                      rw [skipJsonWs_all_cons (tw_all rr) h3nw]
                      have hV := hre3 g2 r2
                        (by simp only [List.length_cons]; omega) hedge
                      simp only [List.cons_append] at hV
                      rw [hV]
              · rw [if_neg b2] at h
                cases h
        · rw [if_neg b1] at h
          cases h
    · -- parseObjTail
      intro s acc v r h
      cases s with
      | nil => cases h
      | cons d rr =>
        simp only [parseObjTail] at h
        by_cases b1 : d = '\x7d'
        · rw [if_pos b1] at h
          injection h with hp
          injection hp with hv hr
          subst hv
          subst hr
          refine ⟨[d], rfl, ⟨d, rfl, by rw [b1]; rfl⟩, ?_⟩
          intro g r2 hg hedge
          cases g with
          | zero => omega
          | succ g2 =>
            show parseObjTail (g2 + 1) (d :: r2) acc = _
            simp only [parseObjTail]
            rw [if_pos b1]
        · rw [if_neg b1] at h
          by_cases b2 : d = ','
          · rw [if_pos b2] at h
            cases hm : parseMember f (skipJsonWs rr) with
            | none => rw [hm] at h; cases h
            | some pr =>
              obtain ⟨kv, rm⟩ := pr
              rw [hm] at h
              obtain ⟨u1, hs1, hg1, hre1⟩ := ihM _ _ _ hm
              obtain ⟨u2, hs2, hg2, hre2⟩ := ihO _ _ _ _ h
              obtain ⟨e1, u1t, rfl, h1nw⟩ :
                  ∃ e t, u1 = e :: t ∧ isJsonWs e = false := by
                cases u1 with
                | nil => exact absurd rfl (goodEnd_ne_nil hg1)
                | cons x xs =>
                  refine ⟨x, xs, rfl,
                    head?_dropWhile_false (p := isJsonWs) (l := rr) ?_⟩
                  rw [show List.dropWhile isJsonWs rr = (x :: xs) ++ rm
                    from hs1]
                  rfl
              obtain ⟨e2, u2t, rfl, h2nw⟩ :
                  ∃ e t, u2 = e :: t ∧ isJsonWs e = false := by
                cases u2 with
                | nil => exact absurd rfl (goodEnd_ne_nil hg2)
                | cons x xs =>
                  refine ⟨x, xs, rfl,
                    head?_dropWhile_false (p := isJsonWs) (l := rm) ?_⟩
                  rw [show List.dropWhile isJsonWs rm = (x :: xs) ++ r
                    from hs2]
                  rfl
              refine ⟨d :: (rr.takeWhile isJsonWs ++ ((e1 :: u1t) ++
                (rm.takeWhile isJsonWs ++ (e2 :: u2t)))), ?_,
                goodEnd_cons (goodEnd_append (goodEnd_append
                  (goodEnd_append hg2))), ?_⟩
              · show d :: rr = d :: ((rr.takeWhile isJsonWs ++ ((e1 :: u1t) ++
                  (rm.takeWhile isJsonWs ++ (e2 :: u2t)))) ++ r)
                rw [List.append_assoc, List.append_assoc, List.append_assoc,
                  ← hs2, skip_decomp, ← hs1, skip_decomp]
              · intro g r2 hg hedge
                cases g with
                | zero => omega
                | succ g2 =>
                  have hlen := hg
                  simp only [List.length_cons, List.length_append] at hlen
                  show parseObjTail (g2 + 1) (d :: ((rr.takeWhile isJsonWs ++
                    ((e1 :: u1t) ++ (rm.takeWhile isJsonWs ++
                      (e2 :: u2t)))) ++ r2)) acc = _
                  simp only [parseObjTail]
                  rw [if_neg b1, if_pos b2]
                  simp only [List.append_assoc, List.cons_append]
                  rw [skipJsonWs_all_cons (tw_all rr) h1nw]
                  have hedge1 : edgeM rm
                      ((rm.takeWhile isJsonWs ++ (e2 :: u2t)) ++ r2) := by
                    refine Or.inl ?_
                    have hrm : rm = (rm.takeWhile isJsonWs ++ (e2 :: u2t)) ++ r := by
                      rw [List.append_assoc, ← hs2, skip_decomp]
                    conv_lhs => rw [hrm]
                    refine head?_append_same ?_
                    intro h0
                    rcases List.append_eq_nil.mp h0 with ⟨_, h02⟩
                    cases h02
                  have hM := hre1 g2
                    ((rm.takeWhile isJsonWs ++ (e2 :: u2t)) ++ r2)
                    (by simp only [List.length_cons]; omega) hedge1
                  simp only [List.append_assoc, List.cons_append] at hM
                  rw [hM]
                  simp only []
                  rw [skipJsonWs_all_cons (tw_all rm) h2nw]
                  have hO := hre2 g2 r2
                    (by simp only [List.length_cons]; omega) hedge
                  simp only [List.cons_append] at hO
                  rw [hO]
          · rw [if_neg b2] at h
            cases h
    · -- parseArrTail
      intro s acc v r h
      cases s with
      | nil => cases h
      | cons d rr =>
        simp only [parseArrTail] at h
        by_cases b1 : d = ']'
        · rw [if_pos b1] at h
          injection h with hp
          injection hp with hv hr
          subst hv
          subst hr
          refine ⟨[d], rfl, ⟨d, rfl, by rw [b1]; rfl⟩, ?_⟩
          intro g r2 hg hedge
          cases g with
          | zero => omega
          | succ g2 =>
            show parseArrTail (g2 + 1) (d :: r2) acc = _
            simp only [parseArrTail]
            rw [if_pos b1]
        · rw [if_neg b1] at h
          by_cases b2 : d = ','
          · rw [if_pos b2] at h
            cases hm : parseVal f (skipJsonWs rr) with
            | none => rw [hm] at h; cases h
            | some pr =>
              obtain ⟨v1, rm⟩ := pr
              rw [hm] at h
              obtain ⟨u1, hs1, hg1, hre1⟩ := ihV _ _ _ hm
              obtain ⟨u2, hs2, hg2, hre2⟩ := ihA _ _ _ _ h
              obtain ⟨e1, u1t, rfl, h1nw⟩ :
                  ∃ e t, u1 = e :: t ∧ isJsonWs e = false := by
                cases u1 with
                | nil => exact absurd rfl (goodEnd_ne_nil hg1)
                | cons x xs =>
                  refine ⟨x, xs, rfl,
                    head?_dropWhile_false (p := isJsonWs) (l := rr) ?_⟩
                  rw [show List.dropWhile isJsonWs rr = (x :: xs) ++ rm
                    from hs1]
                  rfl
              obtain ⟨e2, u2t, rfl, h2nw⟩ :
                  ∃ e t, u2 = e :: t ∧ isJsonWs e = false := by
                cases u2 with
                | nil => exact absurd rfl (goodEnd_ne_nil hg2)
                | cons x xs =>
                  refine ⟨x, xs, rfl,
                    head?_dropWhile_false (p := isJsonWs) (l := rm) ?_⟩
                  rw [show List.dropWhile isJsonWs rm = (x :: xs) ++ r
                    from hs2]
                  rfl
              refine ⟨d :: (rr.takeWhile isJsonWs ++ ((e1 :: u1t) ++
                (rm.takeWhile isJsonWs ++ (e2 :: u2t)))), ?_,
                goodEnd_cons (goodEnd_append (goodEnd_append
                  (goodEnd_append hg2))), ?_⟩
              · show d :: rr = d :: ((rr.takeWhile isJsonWs ++ ((e1 :: u1t) ++
                  (rm.takeWhile isJsonWs ++ (e2 :: u2t)))) ++ r)
                rw [List.append_assoc, List.append_assoc, List.append_assoc,
                  ← hs2, skip_decomp, ← hs1, skip_decomp]
              · intro g r2 hg hedge
                cases g with
                | zero => omega
                | succ g2 =>
                  have hlen := hg
                  simp only [List.length_cons, List.length_append] at hlen
                  show parseArrTail (g2 + 1) (d :: ((rr.takeWhile isJsonWs ++
                    ((e1 :: u1t) ++ (rm.takeWhile isJsonWs ++
                      (e2 :: u2t)))) ++ r2)) acc = _
                  simp only [parseArrTail]
                  rw [if_neg b1, if_pos b2]
                  simp only [List.append_assoc, List.cons_append]
                  rw [skipJsonWs_all_cons (tw_all rr) h1nw]
                  have hedge1 : edgeM rm
                      ((rm.takeWhile isJsonWs ++ (e2 :: u2t)) ++ r2) := by
                    refine Or.inl ?_
                    have hrm : rm = (rm.takeWhile isJsonWs ++ (e2 :: u2t)) ++ r := by
                      rw [List.append_assoc, ← hs2, skip_decomp]
                    conv_lhs => rw [hrm]
                    refine head?_append_same ?_
                    intro h0
                    rcases List.append_eq_nil.mp h0 with ⟨_, h02⟩
                    cases h02
                  have hM := hre1 g2
                    ((rm.takeWhile isJsonWs ++ (e2 :: u2t)) ++ r2)
                    (by simp only [List.length_cons]; omega) hedge1
                  simp only [List.append_assoc, List.cons_append] at hM
                  rw [hM]
                  simp only []
                  rw [skipJsonWs_all_cons (tw_all rm) h2nw]
                  have hO := hre2 g2 r2
                    (by simp only [List.length_cons]; omega) hedge
                  simp only [List.cons_append] at hO
                  rw [hO]
          · rw [if_neg b2] at h
            cases h

/-! ### Claim C1: behaviour on raw text with no JSON content -/

/-- C1 counterexample: on the input with no brace-delimited substring the
code takes the midpoint-split branch, so the transcript is the first half
of the raw text, not the full raw text as the claim states. -/
theorem c1_counterexample :
    asStr (normalize "no json here".data).transcript ≠
      some "no json here".data ∧
    normalize "no json here".data =
      ⟨JsValue.str "no jso".data, JsValue.str "n here".data⟩ :=
  ⟨by decide, rfl⟩

/-- C1 (amended): for raw text with no brace-delimited substring whose
cleaned form does not yield fields from a direct parse, normalization
never throws and returns the midpoint split of the raw text; the full raw
text with the fixed placeholder arises only when a brace-delimited
substring exists but fails to parse. -/
theorem c1_no_json_midpoint (raw : List Char)
    (hd : attemptParse (cleanFences raw) = none)
    (hb : braceMatch raw = none) :
    normalize raw =
      ⟨JsValue.str (raw.take (raw.length / 2)),
       JsValue.str (raw.drop (raw.length / 2))⟩ :=
  normalize_eq_split hd hb

theorem c1_no_json_midpoint_witness :
    normalize "no json here".data =
      ⟨JsValue.str "no jso".data, JsValue.str "n here".data⟩ :=
  c1_no_json_midpoint "no json here".data rfl rfl

/-! ### Claim C3: extraction of a brace-delimited object from prose -/

theorem dropUntilBrace_append {pre x : List Char} (h : '\x7b' ∉ pre) :
    dropUntilBrace (pre ++ x) = dropUntilBrace x := by
  induction pre with
  | nil => rfl
  | cons c cs ih =>
    have hc : c ≠ '\x7b' := fun hc => h (hc ▸ List.mem_cons_self c cs)
    simp only [List.cons_append, dropUntilBrace, if_neg hc]
    exact ih (fun hm => h (List.mem_cons_of_mem c hm))

theorem eq_append_of_getLast {l : List Char} {a : Char}
    (h : l.getLast? = some a) : ∃ t, l = t ++ [a] := by
  induction l with
  | nil => cases h
  | cons x xs ih =>
    cases xs with
    | nil =>
      have hx : x = a := by simpa using h
      exact ⟨[], by simp [hx]⟩
    | cons y ys =>
      rw [List.getLast?_cons_cons] at h
      obtain ⟨t, ht⟩ := ih h
      exact ⟨x :: t, by simp [ht]⟩

/-- The brace regex applied to a text consisting of an opening-brace …
closing-brace core with brace-free prose around it matches exactly the
core. -/
theorem braceMatch_embedded {pre obj post : List Char}
    (hpre : '\x7b' ∉ pre) (hpost : '\x7d' ∉ post)
    (hhead : obj.head? = some '\x7b') (hlast : obj.getLast? = some '\x7d') :
    braceMatch (pre ++ obj ++ post) = some obj := by
  obtain ⟨obj2, rfl⟩ : ∃ t, obj = '\x7b' :: t := by
    cases obj with
    | nil => cases hhead
    | cons c cs =>
      have hc : c = '\x7b' := by simpa using hhead
      exact ⟨cs, by rw [hc]⟩
  have hlast2 : obj2.getLast? = some '\x7d' := by
    cases obj2 with
    | nil => simp at hlast
    | cons y ys => rwa [List.getLast?_cons_cons] at hlast
  obtain ⟨l, rfl⟩ := eq_append_of_getLast hlast2
  have h1 : dropUntilBrace (pre ++ ('\x7b' :: (l ++ ['\x7d'])) ++ post) =
      some ('\x7b' :: ((l ++ ['\x7d']) ++ post)) := by
    rw [List.append_assoc, dropUntilBrace_append hpre]
    simp [dropUntilBrace]
  have h2 : uptoLastClose ((l ++ ['\x7d']) ++ post) =
      some (l ++ ['\x7d']) := by
    unfold uptoLastClose
    have hrev : ((l ++ ['\x7d']) ++ post).reverse =
        post.reverse ++ ('\x7d' :: l.reverse) := by
      simp
    rw [hrev]
    have hall : ∀ c ∈ post.reverse, (decide (c ≠ '\x7d')) = true := by
      intro c hc
      have : c ∈ post := List.mem_reverse.mp hc
      simp only [decide_eq_true_eq]
      exact fun he => hpost (he ▸ this)
    rw [dropWhile_append_all hall]
    simp [List.dropWhile_cons]
  unfold braceMatch
  rw [h1]
  simp only [h2]

theorem attemptParse_none {s : List Char} (h : jsonParse s = none) :
    attemptParse s = none := by
  simp [attemptParse, h]

theorem attemptParse_obj {s : List Char}
    {fs : List (List Char × JsValue)}
    (h : jsonParse s = some (JsValue.obj fs)) :
    attemptParse s =
      some (orEmptyStr (lookupLast fs tKey),
            orEmptyStr (lookupLast fs aKey)) := by
  simp [attemptParse, h, jsGetField]

/-- C3: when the cleaned reply is not parseable but the raw text is
brace-free prose around a single brace-delimited object that parses, the
stage matches exactly that object against the brace regex, parses it, and
takes the transcript and analytics fields from it. -/
theorem c3_embedded_object (pre obj post : List Char)
    (fs : List (List Char × JsValue))
    (hd : jsonParse (cleanFences (pre ++ obj ++ post)) = none)
    (hpre : '\x7b' ∉ pre) (hpost : '\x7d' ∉ post)
    (hob : jsonParse obj = some (JsValue.obj fs))
    (hhead : obj.head? = some '\x7b')
    (hlast : obj.getLast? = some '\x7d') :
    braceMatch (pre ++ obj ++ post) = some obj ∧
    normalize (pre ++ obj ++ post) =
      ⟨orEmptyStr (lookupLast fs tKey),
       orEmptyStr (lookupLast fs aKey)⟩ := by
  have hb := braceMatch_embedded hpre hpost hhead hlast
  exact ⟨hb, normalize_eq_inner (attemptParse_none hd) hb
    (attemptParse_obj hob)⟩

theorem c3_embedded_object_witness :
    braceMatch ("Sure, here it is: ".data ++
      "\x7b\"transcript\":\"hi\",\"analytics\":\"ok\"\x7d".data ++
      " as requested".data) =
      some "\x7b\"transcript\":\"hi\",\"analytics\":\"ok\"\x7d".data ∧
    normalize ("Sure, here it is: ".data ++
      "\x7b\"transcript\":\"hi\",\"analytics\":\"ok\"\x7d".data ++
      " as requested".data) =
      ⟨JsValue.str "hi".data, JsValue.str "ok".data⟩ :=
  c3_embedded_object "Sure, here it is: ".data
    "\x7b\"transcript\":\"hi\",\"analytics\":\"ok\"\x7d".data
    " as requested".data
    [("transcript".data, JsValue.str "hi".data),
     ("analytics".data, JsValue.str "ok".data)]
    rfl (by decide) (by decide) rfl rfl rfl

/-! ### Claim C4: totality of the normalization stage -/

/-- C4: the normalization stage is a total function of the raw reply; on
every path where parsing ultimately fails the transcript and analytics are
plain string values, and the response built from any reply reports
success, never an error. -/
theorem c4_normalization_total (raw : List Char)
    (hd : attemptParse (cleanFences raw) = none)
    (hi : ∀ m, braceMatch raw = some m → attemptParse m = none) :
    (∃ t a, normalize raw = ⟨JsValue.str t, JsValue.str a⟩) ∧
    ∀ f : UploadedFile, (buildResponse f raw).success = true := by
  constructor
  · cases hb : braceMatch raw with
    | none => exact ⟨_, _, normalize_eq_split hd hb⟩
    | some m => exact ⟨_, _, normalize_eq_placeholder hd hb (hi m hb)⟩
  · intro f
    rfl

theorem c4_normalization_total_witness :
    (∃ t a, normalize "pre \x7bnot json\x7d post".data =
      ⟨JsValue.str t, JsValue.str a⟩) ∧
    ∀ f : UploadedFile,
      (buildResponse f "pre \x7bnot json\x7d post".data).success = true :=
  c4_normalization_total "pre \x7bnot json\x7d post".data rfl
    (fun m hm =>
      (Option.some.inj
        (hm : some "\x7bnot json\x7d".data = some m)) ▸
        (rfl : attemptParse "\x7bnot json\x7d".data = none))

/-! ### Claim C5: input validation precedes the external call -/

/-- C5: with the credential configured, a request with a missing file or a
file over the size cap gets a 400 error with a message and never reaches
the external API. -/
theorem c5_validation_400 (e : Env) (file : Option UploadedFile) (ms : Nat)
    (hk : envKeyTruthy e = true)
    (hf : file = none ∨ ∃ f, file = some f ∧ f.size > ms) :
    ∃ msg, handlePre e file ms = PreOutcome.err 400 msg ∧ msg ≠ [] ∧
      invokesApi (handlePre e file ms) = false := by
  unfold handlePre
  rw [hk]
  rcases hf with hf | ⟨f, hf, hsz⟩
  · rw [hf]
    exact ⟨noFileMsg, rfl, by decide, rfl⟩
  · rw [hf]
    simp only [Bool.not_true, Bool.false_eq_true, if_false, decide_eq_true hsz,
      if_true]
    exact ⟨tooLargeMsg, by simp [hsz], by decide, by simp [hsz, invokesApi]⟩

theorem c5_validation_400_witness :
    ∃ msg,
      handlePre ⟨some "key".data⟩
        (some ⟨"big.mp4".data, 20971521, "video/mp4".data⟩) maxSizeAnalyze =
        PreOutcome.err 400 msg ∧ msg ≠ [] ∧
      invokesApi (handlePre ⟨some "key".data⟩
        (some ⟨"big.mp4".data, 20971521, "video/mp4".data⟩) maxSizeAnalyze) =
        false :=
  c5_validation_400 ⟨some "key".data⟩
    (some ⟨"big.mp4".data, 20971521, "video/mp4".data⟩) maxSizeAnalyze
    (by decide) (Or.inr ⟨_, rfl, by decide⟩)

/-! ### Claim C6: missing credential -/

/-- C6: with the credential variable absent the handler answers 500 with
the configuration message and the external API is not invoked. -/
theorem c6_missing_key_500 (e : Env) (file : Option UploadedFile) (ms : Nat)
    (hk : e.geminiApiKey = none) :
    handlePre e file ms = PreOutcome.err 500 keyMissingMsg ∧
    invokesApi (handlePre e file ms) = false := by
  have h : envKeyTruthy e = false := by
    unfold envKeyTruthy
    rw [hk]
  unfold handlePre
  rw [h]
  exact ⟨rfl, rfl⟩

theorem c6_missing_key_500_witness :
    handlePre ⟨none⟩ (some ⟨"a.mp4".data, 5, "video/mp4".data⟩)
        maxSizeAnalyze = PreOutcome.err 500 keyMissingMsg ∧
    invokesApi (handlePre ⟨none⟩ (some ⟨"a.mp4".data, 5, "video/mp4".data⟩)
        maxSizeAnalyze) = false :=
  c6_missing_key_500 ⟨none⟩ (some ⟨"a.mp4".data, 5, "video/mp4".data⟩)
    maxSizeAnalyze rfl

/-! ### Claim C7: what fence stripping passes to the direct parse -/

theorem trailsWith_append_self (x p : List Char) :
    trailsWith p (x ++ p) = true := by
  unfold trailsWith
  rw [List.reverse_append]
  exact leadsWith_self_append p.reverse x.reverse

theorem dropRightN_append (x y : List Char) :
    dropRightN (x ++ y) y.length = x := by
  unfold dropRightN
  rw [List.length_append, Nat.add_sub_cancel]
  exact List.take_left x y

theorem dropTrailingWs_eq_self {l : List Char} {c : Char}
    (h : l.getLast? = some c) (hc : isJsWs c = false) :
    dropTrailingWs l = l := by
  unfold dropTrailingWs
  have hh : l.reverse.head? = some c := by rw [List.head?_reverse]; exact h
  cases hr : l.reverse with
  | nil => rw [hr] at hh; cases hh
  | cons d ds =>
    rw [hr] at hh
    have hdc : isJsWs d = false := by
      have hd : d = c := by simpa using hh
      rw [hd]; exact hc
    rw [List.dropWhile_cons, hdc]
    simp only [Bool.false_eq_true, if_false]
    rw [← hr, List.reverse_reverse]

theorem dropWhile_idem (p : Char → Bool) (l : List Char) :
    (l.dropWhile p).dropWhile p = l.dropWhile p := by
  induction l with
  | nil => rfl
  | cons c cs ih =>
    rw [List.dropWhile_cons]
    by_cases h : p c = true
    · rw [if_pos h]; exact ih
    · rw [if_neg h, List.dropWhile_cons, if_neg h]

/-- The closing fence appended after any body survives the trailing-fence
strip as exactly that body. -/
theorem stripTrailFence_append (b : List Char) :
    stripTrailFence (b ++ '\n' :: fenceBare) = b := by
  have hlast : (b ++ '\n' :: fenceBare).getLast? = some '\x60' := by
    rw [List.getLast?_append]; rfl
  have hd : dropTrailingWs (b ++ '\n' :: fenceBare) =
      b ++ '\n' :: fenceBare :=
    dropTrailingWs_eq_self hlast rfl
  have h0 : b ++ '\n' :: fenceBare = (b ++ ['\n']) ++ fenceBare := by simp
  simp only [stripTrailFence, hd]
  rw [h0, trailsWith_append_self]
  simp only [if_true]
  rw [show (3 : Nat) = fenceBare.length from rfl, dropRightN_append,
    trailsWith_append_self]
  simp only [if_true]
  rw [show (1 : Nat) = (['\n'] : List Char).length from rfl,
    dropRightN_append]

/-- A bare fence is absent from the head of a body that does not start
with one, even with the closing fence appended after it. -/
theorem leadsWith_fence_append {b : List Char}
    (hb : leadsWith fenceBare b = false) :
    leadsWith fenceBare (b ++ '\n' :: fenceBare) = false := by
  cases b with
  | nil => rfl
  | cons c b1 =>
    cases b1 with
    | nil =>
      show (decide ('\x60' = c) && false) = false
      exact Bool.and_false _
    | cons d b2 =>
      cases b2 with
      | nil =>
        show (decide ('\x60' = c) && (decide ('\x60' = d) && false)) = false
        rw [Bool.and_false, Bool.and_false]
      | cons e rest =>
        exact (rfl :
          leadsWith fenceBare (c :: d :: e :: (rest ++ '\n' :: fenceBare)) =
          leadsWith fenceBare (c :: d :: e :: rest)).trans hb

/-- C7 counterexample: a language tag other than json is not stripped; the
string passed to the direct parse keeps the tag text, so it is not the
trimmed body. -/
theorem c7_counterexample :
    cleanFences (wrapFence "xml".data "\x7b\x7d".data) =
      "xml\n\x7b\x7d".data ∧
    cleanFences (wrapFence "xml".data "\x7b\x7d".data) ≠
      trimJS "\x7b\x7d".data :=
  ⟨rfl, by decide⟩

/-- Core fence-strip computation: for a body whose whitespace-stripped
form does not itself begin with a fence, wrapping with the json tag or
with no tag passes exactly the trimmed body to the direct parse. -/
theorem fence_strip_core (B : List Char)
    (hB : leadsWith fenceBare (B.dropWhile isJsWs) = false) :
    cleanFences (wrapFence "json".data B) = trimJS B ∧
    cleanFences (wrapFence [] B) = trimJS B := by
  have keyB : trimJS (stripTrailFence
      ((B ++ '\n' :: fenceBare).dropWhile isJsWs)) = trimJS B := by
    rw [List.dropWhile_append]
    by_cases he : (B.dropWhile isJsWs).isEmpty = true
    · rw [if_pos he]
      show trimJS (stripTrailFence fenceBare) = trimJS B
      show ([] : List Char) = trimJS B
      unfold trimJS
      rw [List.isEmpty_iff.mp he]
      rfl
    · rw [if_neg he, stripTrailFence_append]
      unfold trimJS
      rw [dropWhile_idem]
  have keyA : trimJS (stripTrailFence (stripBareFence
      ((B ++ '\n' :: fenceBare).dropWhile isJsWs))) = trimJS B := by
    rw [List.dropWhile_append]
    by_cases he : (B.dropWhile isJsWs).isEmpty = true
    · rw [if_pos he]
      show trimJS (stripTrailFence (stripBareFence fenceBare)) = trimJS B
      show ([] : List Char) = trimJS B
      unfold trimJS
      rw [List.isEmpty_iff.mp he]
      rfl
    · rw [if_neg he]
      unfold stripBareFence
      rw [leadsWith_fence_append hB]
      simp only [Bool.false_eq_true, if_false]
      rw [stripTrailFence_append]
      unfold trimJS
      rw [dropWhile_idem]
  refine ⟨?_, ?_⟩
  · have hlast : (wrapFence "json".data B).getLast? = some '\x60' := by
      show ((fenceBare ++ "json".data ++ '\n' :: B) ++
        '\n' :: fenceBare).getLast? = some '\x60'
      rw [List.getLast?_append]
      rfl
    have h1 : trimJS (wrapFence "json".data B) = wrapFence "json".data B := by
      unfold trimJS
      rw [(rfl : (wrapFence "json".data B).dropWhile isJsWs =
        wrapFence "json".data B)]
      exact dropTrailingWs_eq_self hlast rfl
    show trimJS (stripTrailFence (stripBareFence (stripJsonFence
      (trimJS (wrapFence "json".data B))))) = trimJS B
    rw [h1]
    exact keyA
  · have hlast : (wrapFence [] B).getLast? = some '\x60' := by
      show ((fenceBare ++ [] ++ '\n' :: B) ++
        '\n' :: fenceBare).getLast? = some '\x60'
      rw [List.getLast?_append]
      rfl
    have h1 : trimJS (wrapFence [] B) = wrapFence [] B := by
      unfold trimJS
      rw [(rfl : (wrapFence [] B).dropWhile isJsWs = wrapFence [] B)]
      exact dropTrailingWs_eq_self hlast rfl
    show trimJS (stripTrailFence (stripBareFence (stripJsonFence
      (trimJS (wrapFence [] B))))) = trimJS B
    rw [h1]
    exact keyB

/-- C7 (amended): the first normalization step strips a leading fence only
when it is bare or tagged exactly json, plus a trailing fence, then trims:
for a body whose whitespace-stripped form does not itself begin with a
fence, wrapping with the json tag or with no tag passes exactly the
trimmed body to the direct parse.  Other language tags lose only the three
backticks of the opening fence, so the tag text survives into the parsed
string. -/
theorem c7_fence_strip (B : List Char)
    (hB : leadsWith fenceBare (B.dropWhile isJsWs) = false) :
    cleanFences (wrapFence "json".data B) = trimJS B ∧
    cleanFences (wrapFence [] B) = trimJS B :=
  fence_strip_core B hB

theorem c7_fence_strip_witness :
    cleanFences (wrapFence "json".data " \x7b\"a\":1\x7d ".data) =
      trimJS " \x7b\"a\":1\x7d ".data ∧
    cleanFences (wrapFence [] " \x7b\"a\":1\x7d ".data) =
      trimJS " \x7b\"a\":1\x7d ".data :=
  c7_fence_strip " \x7b\"a\":1\x7d ".data (by decide)

/-! ### Claim C2: invariance of normalization under fence wrapping -/

theorem leadsWith_head_ne {p c : Char} {ps cs : List Char} (h : ¬p = c) :
    leadsWith (p :: ps) (c :: cs) = false := by
  show (decide (p = c) && leadsWith ps cs) = false
  rw [decide_eq_false h, Bool.false_and]

theorem head_false_of_cons {p : Char → Bool} {c : Char} {l : List Char}
    (h : p c = false) : ∀ d, (c :: l).head? = some d → p d = false := by
  intro d hd
  injection hd with h1
  rw [← h1]
  exact h

/-- A successful value parse starts at a value-initial character. -/
theorem parseVal_headStart {f : Nat} {s : List Char} {v : JsValue}
    {r : List Char} (h : parseVal f s = some (v, r)) :
    ∃ c cs, s = c :: cs ∧ startOk c = true := by
  cases f with
  | zero => cases h
  | succ f =>
    cases s with
    | nil => cases h
    | cons c cs =>
      refine ⟨c, cs, rfl, ?_⟩
      simp only [parseVal] at h
      by_cases b1 : c = '"'
      · subst b1; decide
      · rw [if_neg b1] at h
        by_cases b2 : c = '\x7b'
        · subst b2; decide
        · rw [if_neg b2] at h
          by_cases b3 : c = '['
          · subst b3; decide
          · rw [if_neg b3] at h
            by_cases b4 : c = 't'
            · subst b4; decide
            · rw [if_neg b4] at h
              by_cases b5 : c = 'f'
              · subst b5; decide
              · rw [if_neg b5] at h
                by_cases b6 : c = 'n'
                · subst b6; decide
                · rw [if_neg b6] at h
                  by_cases b7 : (decide (c = '-') || isDig c) = true
                  · rcases orE b7 with hx | hx
                    · have hc : c = '-' := of_decide_eq_true hx
                      subst hc; decide
                    · simp [startOk, hx]
                  · rw [if_neg b7] at h
                    cases h

/-- Trailing whitespace after a run ending in a non-whitespace character
is exactly what the trailing trim removes. -/
theorem dropTrailingWs_append_ws {u r : List Char}
    (hr : ∀ x ∈ r, isJsWs x = true) {e : Char}
    (hu : u.getLast? = some e) (he : isJsWs e = false) :
    dropTrailingWs (u ++ r) = u := by
  have hh : ∀ c, u.reverse.head? = some c → isJsWs c = false := by
    intro c hc
    rw [List.head?_reverse, hu] at hc
    injection hc with hce
    rw [← hce]
    exact he
  unfold dropTrailingWs
  rw [List.reverse_append,
    dropWhile_append_all (fun c hc => hr c (List.mem_reverse.mp hc)),
    dropWhile_head_false hh, List.reverse_reverse]

/-- Master decomposition for a string accepted by JSON.parse: the trim and
the whole fence cleanup leave exactly the consumed value text, that text
still parses to the same value, and the trimmed text does not begin with a
fence. -/
theorem jsonParse_clean {T : List Char} {v : JsValue}
    (h : jsonParse T = some v) :
    ∃ u, trimJS T = u ∧ cleanFences T = u ∧ jsonParse u = some v ∧
      leadsWith fenceBare (T.dropWhile isJsWs) = false := by
  simp only [jsonParse] at h
  cases hp : parseVal ((skipJsonWs T).length + 1) (skipJsonWs T) with
  | none => rw [hp] at h; cases h
  | some pr =>
    obtain ⟨v0, r⟩ := pr
    rw [hp] at h
    simp only [] at h
    by_cases hrE : (skipJsonWs r).isEmpty = true
    · rw [if_pos hrE] at h
      injection h with hv0
      subst hv0
      obtain ⟨u, hs, hgood, hrep⟩ := (parse_replay _).1 _ _ _ hp
      obtain ⟨e, he_last, he_end⟩ := hgood
      obtain ⟨uc, ut, huc, hstart⟩ : ∃ c cs,
          u ++ r = c :: cs ∧ startOk c = true := by
        rw [← hs]
        exact parseVal_headStart hp
      obtain ⟨ut0, rfl⟩ : ∃ t, u = uc :: t := by
        cases u with
        | nil => cases he_last
        | cons x xs =>
          rw [List.cons_append] at huc
          injection huc with h1 h2
          exact ⟨xs, by rw [h1]⟩
      obtain ⟨hwsF, huc60, hucJ⟩ := startOk_char hstart
      obtain ⟨heF, he60⟩ := endOk_char he_end
      have hrAll : ∀ x ∈ r, isJsonWs x = true := by
        have h0 : List.dropWhile isJsonWs r = [] := List.isEmpty_iff.mp hrE
        exact fun x hx => List.dropWhile_eq_nil_iff.mp h0 x hx
      have hrAllW : ∀ x ∈ r, isJsWs x = true :=
        fun x hx => (jsonWs_char (hrAll x hx)).1
      have hTsplit : T = T.takeWhile isJsonWs ++ ((uc :: ut0) ++ r) := by
        conv_lhs => rw [← skip_decomp T]
        rw [hs]
      have hdropT : T.dropWhile isJsWs = (uc :: ut0) ++ r := by
        conv_lhs => rw [hTsplit]
        rw [dropWhile_append_all
          (fun c hc => (jsonWs_char (tw_all T c hc)).1)]
        exact dropWhile_head_false (head_false_of_cons hwsF)
      have htrimT : trimJS T = uc :: ut0 := by
        unfold trimJS
        rw [hdropT]
        exact dropTrailingWs_append_ws hrAllW he_last heF
      have hsj : stripJsonFence (uc :: ut0) = uc :: ut0 := by
        unfold stripJsonFence
        rw [show fenceJson = '\x60' :: "\x60\x60json".data from rfl,
          leadsWith_head_ne (fun hq => huc60 hq.symm)]
        simp only [Bool.false_eq_true, if_false]
      have hsb : stripBareFence (uc :: ut0) = uc :: ut0 := by
        unfold stripBareFence
        rw [show fenceBare = '\x60' :: "\x60\x60".data from rfl,
          leadsWith_head_ne (fun hq => huc60 hq.symm)]
        simp only [Bool.false_eq_true, if_false]
      have hst : stripTrailFence (uc :: ut0) = uc :: ut0 := by
        have hdt : dropTrailingWs (uc :: ut0) = uc :: ut0 :=
          dropTrailingWs_eq_self he_last heF
        have htw : trailsWith fenceBare (uc :: ut0) = false := by
          unfold trailsWith
          obtain ⟨t, ht⟩ : ∃ t, (uc :: ut0).reverse = e :: t := by
            have hh : (uc :: ut0).reverse.head? = some e := by
              rw [List.head?_reverse]
              exact he_last
            cases hrv : (uc :: ut0).reverse with
            | nil => rw [hrv] at hh; cases hh
            | cons x xs =>
              rw [hrv] at hh
              injection hh with hx
              exact ⟨xs, by rw [hx]⟩
          rw [ht, show fenceBare.reverse = '\x60' :: "\x60\x60".data from
            by decide]
          exact leadsWith_head_ne (fun hq => he60 hq.symm)
        simp only [stripTrailFence, hdt, htw]
        simp only [Bool.false_eq_true, if_false]
      have hclean : cleanFences T = uc :: ut0 := by
        unfold cleanFences
        rw [htrimT, hsj, hsb, hst]
        unfold trimJS
        rw [dropWhile_head_false (head_false_of_cons hwsF)]
        exact dropTrailingWs_eq_self he_last heF
      have hskipu : skipJsonWs (uc :: ut0) = uc :: ut0 :=
        dropWhile_head_false (head_false_of_cons hucJ)
      have hedge : edgeM r [] := by
        cases r with
        | nil => exact Or.inl rfl
        | cons w ws =>
          refine Or.inr ⟨?_, rfl⟩
          show (!(isDig w || decide (w = '.') || decide (w = 'e') ||
            decide (w = 'E'))) = true
          rw [(jsonWs_char (hrAll w (List.mem_cons_self w ws))).2]
          rfl
      have hpu : parseVal ((uc :: ut0).length + 1) (uc :: ut0) =
          some (v0, []) := by
        have h2 := hrep ((uc :: ut0).length + 1) [] (by omega) hedge
        rw [List.append_nil] at h2
        exact h2
      refine ⟨uc :: ut0, htrimT, hclean, ?_, ?_⟩
      · simp only [jsonParse, hskipu, hpu]
        rfl
      · rw [hdropT, List.cons_append]
        exact leadsWith_head_ne (fun hq => huc60 hq.symm)
    · rw [if_neg hrE] at h
      cases h

/-- A non-null parsed value never throws on property access. -/
theorem jsGetField_of_ne_null {v : JsValue} (hv : v ≠ JsValue.null)
    (k : List Char) : ∃ w, jsGetField v k = some w := by
  cases v with
  | null => exact absurd rfl hv
  | bool b => exact ⟨none, rfl⟩
  | num l => exact ⟨none, rfl⟩
  | str s => exact ⟨none, rfl⟩
  | arr xs => exact ⟨lookupLast [] k, rfl⟩
  | obj fs => exact ⟨lookupLast fs k, rfl⟩

/-- C2 counterexample: wrapping valid JSON in a fence with a language tag
other than json changes the normalization result, because only bare and
json-tagged fences are stripped; the wrapped form falls through to the
midpoint split. -/
theorem c2_counterexample :
    normalize (wrapFence "xml".data "[1,2]".data) ≠
      normalize "[1,2]".data := by
  intro h
  have h2 := congrArg (fun q => asStr q.transcript) h
  exact absurd h2 (by decide)

/-- C2 (amended): for every text accepted by JSON.parse whose value is not
null, wrapping it in a json-tagged fence or in a bare fence leaves the
normalization result unchanged; both sides succeed on the direct parse
with the same transcript and analytics values.  Fences with any other
language tag are not stripped and break the equivalence. -/
theorem c2_fenced_json (T : List Char) (v : JsValue)
    (hT : jsonParse T = some v) (hv : v ≠ JsValue.null) :
    normalize (wrapFence "json".data T) = normalize T ∧
    normalize (wrapFence [] T) = normalize T := by
  obtain ⟨u, htrim, hclean, hup, hfence⟩ := jsonParse_clean hT
  obtain ⟨tf, htf⟩ := jsGetField_of_ne_null hv tKey
  obtain ⟨af, haf⟩ := jsGetField_of_ne_null hv aKey
  have hap : attemptParse u = some (orEmptyStr tf, orEmptyStr af) := by
    simp only [attemptParse, hup, htf, haf]
  obtain ⟨hw1, hw2⟩ := fence_strip_core T hfence
  have h1 : normalize T = ⟨orEmptyStr tf, orEmptyStr af⟩ :=
    normalize_eq_direct (by rw [hclean]; exact hap)
  have h2 : normalize (wrapFence "json".data T) =
      ⟨orEmptyStr tf, orEmptyStr af⟩ :=
    normalize_eq_direct (by rw [hw1, htrim]; exact hap)
  have h3 : normalize (wrapFence [] T) = ⟨orEmptyStr tf, orEmptyStr af⟩ :=
    normalize_eq_direct (by rw [hw2, htrim]; exact hap)
  exact ⟨h2.trans h1.symm, h3.trans h1.symm⟩

theorem c2_fenced_json_witness :
    jsonParse "\x7b\"transcript\":\"hi\",\"analytics\":\"ok\"\x7d".data =
      some (JsValue.obj [("transcript".data, JsValue.str "hi".data),
        ("analytics".data, JsValue.str "ok".data)]) ∧
    (JsValue.obj [("transcript".data, JsValue.str "hi".data),
        ("analytics".data, JsValue.str "ok".data)] ≠ JsValue.null) ∧
    normalize (wrapFence "json".data
        "\x7b\"transcript\":\"hi\",\"analytics\":\"ok\"\x7d".data) =
      normalize "\x7b\"transcript\":\"hi\",\"analytics\":\"ok\"\x7d".data ∧
    normalize (wrapFence []
        "\x7b\"transcript\":\"hi\",\"analytics\":\"ok\"\x7d".data) =
      normalize "\x7b\"transcript\":\"hi\",\"analytics\":\"ok\"\x7d".data :=
  ⟨rfl, fun h0 => JsValue.noConfusion h0,
    c2_fenced_json "\x7b\"transcript\":\"hi\",\"analytics\":\"ok\"\x7d".data
      (JsValue.obj [("transcript".data, JsValue.str "hi".data),
        ("analytics".data, JsValue.str "ok".data)])
      rfl (fun h0 => JsValue.noConfusion h0)⟩

/-! ### Claim C8: shape of the success response -/

/-- C8 counterexample: a reply whose fields parse to truthy non-strings is
passed through, so the response fields are not string-valued; here they
are the numbers one and two. -/
theorem c8_counterexample :
    asStr (buildResponse ⟨"a.mp4".data, 1048576, "video/mp4".data⟩
      "\x7b\"transcript\":1,\"analytics\":2\x7d".data).transcript = none ∧
    asStr (buildResponse ⟨"a.mp4".data, 1048576, "video/mp4".data⟩
      "\x7b\"transcript\":1,\"analytics\":2\x7d".data).analytics = none ∧
    (buildResponse ⟨"a.mp4".data, 1048576, "video/mp4".data⟩
      "\x7b\"transcript\":1,\"analytics\":2\x7d".data).success = true := by
  refine ⟨?_, ?_, rfl⟩ <;> decide

/-- C8 (amended): for every successful request the response fields are
never absent; independently per field, a falsy normalized value (missing,
empty, or otherwise false-like) becomes the explicit placeholder and a
truthy value passes through unchanged, so the field is string-valued only
when the extracted value is a string; the metadata carries the file name,
formatted size, MIME type, the fixed duration placeholder, and success is
true. -/
theorem c8_response_shape (f : UploadedFile) (raw : List Char) :
    (jsTruthy (normalize raw).transcript = false →
      (buildResponse f raw).transcript = JsValue.str noTranscriptPh) ∧
    (jsTruthy (normalize raw).transcript = true →
      (buildResponse f raw).transcript = (normalize raw).transcript) ∧
    (jsTruthy (normalize raw).analytics = false →
      (buildResponse f raw).analytics = JsValue.str noAnalyticsPh) ∧
    (jsTruthy (normalize raw).analytics = true →
      (buildResponse f raw).analytics = (normalize raw).analytics) ∧
    (buildResponse f raw).metadata =
      { fileName := f.name
        fileSize := formatMB f.size
        mimeType := f.mime
        duration := "N/A".data } ∧
    (buildResponse f raw).success = true := by
  refine ⟨?_, ?_, ?_, ?_, ?_, ?_⟩
  · intro h
    simp only [buildResponse, orPlaceholder, h, Bool.false_eq_true,
      if_false]
  · intro h
    simp only [buildResponse, orPlaceholder, h, if_true]
  · intro h
    simp only [buildResponse, orPlaceholder, h, Bool.false_eq_true,
      if_false]
  · intro h
    simp only [buildResponse, orPlaceholder, h, if_true]
  · simp only [buildResponse]
  · simp only [buildResponse]

set_option maxHeartbeats 2000000 in
theorem c8_response_shape_witness :
    jsTruthy (normalize
      "\x7b\"transcript\":\"hi\",\"analytics\":\"\"\x7d".data).transcript =
        true ∧
    jsTruthy (normalize
      "\x7b\"transcript\":\"hi\",\"analytics\":\"\"\x7d".data).analytics =
        false ∧
    (buildResponse ⟨"b.mp4".data, 2097152, "video/mp4".data⟩
      "\x7b\"transcript\":\"hi\",\"analytics\":\"\"\x7d".data).transcript =
        JsValue.str "hi".data ∧
    (buildResponse ⟨"b.mp4".data, 2097152, "video/mp4".data⟩
      "\x7b\"transcript\":\"hi\",\"analytics\":\"\"\x7d".data).analytics =
        JsValue.str noAnalyticsPh ∧
    (buildResponse ⟨"b.mp4".data, 2097152, "video/mp4".data⟩
      "\x7b\"transcript\":\"hi\",\"analytics\":\"\"\x7d".data).metadata =
      { fileName := "b.mp4".data
        fileSize := "2.00 MB".data
        mimeType := "video/mp4".data
        duration := "N/A".data } ∧
    (buildResponse ⟨"b.mp4".data, 2097152, "video/mp4".data⟩
      "\x7b\"transcript\":\"hi\",\"analytics\":\"\"\x7d".data).success =
        true :=
  ⟨rfl, rfl,
    ((c8_response_shape ⟨"b.mp4".data, 2097152, "video/mp4".data⟩
      "\x7b\"transcript\":\"hi\",\"analytics\":\"\"\x7d".data).2.1
        rfl).trans rfl,
    (c8_response_shape ⟨"b.mp4".data, 2097152, "video/mp4".data⟩
      "\x7b\"transcript\":\"hi\",\"analytics\":\"\"\x7d".data).2.2.1 rfl,
    (c8_response_shape ⟨"b.mp4".data, 2097152, "video/mp4".data⟩
      "\x7b\"transcript\":\"hi\",\"analytics\":\"\"\x7d".data).2.2.2.2.1,
    (c8_response_shape ⟨"b.mp4".data, 2097152, "video/mp4".data⟩
      "\x7b\"transcript\":\"hi\",\"analytics\":\"\"\x7d".data).2.2.2.2.2⟩

/-! ### Claim C9: the GET configuration probe -/

/-- C9: the probe's configured flag is true exactly when the credential is
present and non-empty; when configured the key prefix is the first eight
characters of the credential followed by an ellipsis, otherwise the fixed
not-available marker. -/
theorem c9_probe (e : Env) :
    ((getProbe e).configured = true ↔
      ∃ k, e.geminiApiKey = some k ∧ k ≠ []) ∧
    (∀ k, e.geminiApiKey = some k → k ≠ [] →
      (getProbe e).keyPrefix = k.take 8 ++ "...".data) ∧
    (envKeyTruthy e = false → (getProbe e).keyPrefix = "N/A".data) := by
  refine ⟨?_, ?_, ?_⟩
  · rw [getProbe_configured]
    exact envKeyTruthy_iff e
  · intro k hk hne
    have h : envKeyTruthy e = true := (envKeyTruthy_iff e).mpr ⟨k, hk, hne⟩
    show (if envKeyTruthy e then _ else _) = _
    rw [h, hk]
    simp
  · intro h
    show (if envKeyTruthy e then _ else _) = _
    rw [h]
    simp

theorem c9_probe_witness :
    (getProbe ⟨some "ABCD1234XYZ".data⟩).configured = true ∧
    (getProbe ⟨some "ABCD1234XYZ".data⟩).keyPrefix = "ABCD1234...".data := by
  constructor
  · exact (c9_probe ⟨some "ABCD1234XYZ".data⟩).1.mpr
      ⟨"ABCD1234XYZ".data, rfl, by decide⟩
  · exact (c9_probe ⟨some "ABCD1234XYZ".data⟩).2.1 "ABCD1234XYZ".data rfl
      (by decide)

/-! ### Claim C10: the midpoint split concatenates to the raw text -/

/-- C10 counterexample: a two-character raw text with no brace-delimited
substring whose cleaned form parses directly (a bare number) does not take
the midpoint branch: both fields become empty, and they do not concatenate
to the raw text. -/
theorem c10_counterexample :
    2 ≤ ("42".data).length ∧ braceMatch "42".data = none ∧
    normalize "42".data = ⟨JsValue.str [], JsValue.str []⟩ ∧
    ([] : List Char) ++ [] ≠ "42".data :=
  ⟨by decide, rfl, rfl, by decide⟩

/-- C10 (amended): when the raw text has no brace-delimited substring and
its cleaned form does not yield fields from a direct parse, the midpoint
fallback fires: the transcript is the first half (floor of half the
length), the analytics the remainder, and they concatenate to exactly the
raw text. -/
theorem c10_midpoint_concat (raw : List Char) (hlen : 2 ≤ raw.length)
    (hd : attemptParse (cleanFences raw) = none)
    (hb : braceMatch raw = none) :
    ∃ t a, normalize raw = ⟨JsValue.str t, JsValue.str a⟩ ∧
      t ++ a = raw ∧ t = raw.take (raw.length / 2) ∧
      a = raw.drop (raw.length / 2) := by
  refine ⟨raw.take (raw.length / 2), raw.drop (raw.length / 2), ?_,
    List.take_append_drop _ raw, rfl, rfl⟩
  unfold normalize
  rw [hd, hb]

theorem c10_midpoint_concat_witness :
    ∃ t a, normalize "hello world".data =
      ⟨JsValue.str t, JsValue.str a⟩ ∧
      t ++ a = "hello world".data ∧
      t = ("hello world".data).take 5 ∧ a = ("hello world".data).drop 5 :=
  c10_midpoint_concat "hello world".data (by decide) rfl rfl

end VE
